import Mathlib

/-!
Verification of the xml-tool repository: an XML document is converted into
rows of the shape given by the sources. The repository holds two variants of
the converter:

* the top-down variant (file xml-xpaths.js, first document): option
  normalization with defaults, a recursive traverse that accumulates a path
  string from a start node (document root or a resolved startAtTag element),
  and a post-processing pass trimGeneratedXPaths;
* the bottom-up variant (file part_000): a flat scan collectLeafRows over all
  elements, building each leaf path by walking ancestors with
  buildPathForElement, with quote escaping esc and tag-only sibling indexing
  getSiblingIndex.

Both are embedded below over one functional XML tree model. Strings are
modelled by Lean String, JavaScript string primitives (trim, split, indexOf,
toLowerCase, number rendering) by explicit character-list functions.
-/

set_option maxHeartbeats 1000000

/-! ## XML tree model

An element node has a tag name, an ordered attribute list and an ordered
child-node list (mixed element and text nodes); a text node has its data.
The DOM parent / previousSibling back-references of the sources are modelled
positionally: a node is identified by its index path in childNodes lists.
-/

mutual

inductive XNode where
  | elem (tag : String) (attrs : List (String × String)) (children : XList)
  | text (s : String)

inductive XList where
  | nil
  | cons (hd : XNode) (tl : XList)

end

def XList.toList : XList → List XNode
  | .nil => []
  | .cons c r => c :: r.toList

def XList.ofList : List XNode → XList
  | [] => .nil
  | c :: r => .cons c (XList.ofList r)

/-- nodeType === 1 test of the sources. -/
def isElem : XNode → Bool
  | .elem _ _ _ => true
  | .text _ => false

def tagOf : XNode → String
  | .elem t _ _ => t
  | .text _ => ""

def attrsOf : XNode → List (String × String)
  | .elem _ a _ => a
  | .text _ => []

def childrenOf : XNode → XList
  | .elem _ _ ch => ch
  | .text _ => .nil

mutual

/-- DOM textContent of a node: a text node yields its data, an element the
concatenation of its descendants' text in document order. -/
def textContentN : XNode → String
  | .elem _ _ ch => textContentL ch
  | .text s => s

def textContentL : XList → String
  | .nil => ""
  | .cons c r => textContentN c ++ textContentL r

end

/-! ## JavaScript string primitives -/

/-- trim of a character list: drop whitespace from both ends
(JavaScript String.prototype.trim). -/
def trimChars (l : List Char) : List Char :=
  ((l.dropWhile Char.isWhitespace).reverse.dropWhile Char.isWhitespace).reverse

/-- trim on strings. -/
def jsTrim (s : String) : String := String.mk (trimChars s.data)

/-- decimal digit character. -/
def digitChar (n : Nat) : Char := Char.ofNat (48 + n)

/-- decimal rendering with fuel, so that it reduces in the kernel. -/
def natReprAux : Nat → Nat → List Char
  | 0, _ => []
  | fuel + 1, n => if n < 10 then [digitChar n] else natReprAux fuel (n / 10) ++ [digitChar (n % 10)]

/-- decimal rendering of a natural number, the template interpolation of idx
in the sources. -/
def natRepr (n : Nat) : String := String.mk (natReprAux (n + 1) n)

/-- first attribute with the given name (DOM hasAttribute / getAttribute). -/
def getAttr (a : String) : List (String × String) → Option String
  | [] => none
  | (k, v) :: r => if k = a then some v else getAttr a r

/-- local name of a tag: the DOM localName, which the sources also recompute
as tagName.replace of everything up to the last colon. -/
def localNameOf (tag : String) : String :=
  String.mk ((tag.data.reverse.takeWhile (fun c => c ≠ ':')).reverse)

/-- join of character lists with a separator (Array.prototype.join). -/
def interL (sep : List Char) : List (List Char) → List Char
  | [] => []
  | [s] => s
  | s :: rest => s ++ sep ++ interL sep rest

/-! ## Top-down variant (xml-xpaths.js): options -/

/-- normalized option record of xml-xpaths.js (the namespace field is called
nspace because namespace is a Lean keyword; the debug flag is omitted since
it only gates console logging). -/
structure Options where
  nspace : String
  attributesToIncludeInPath : List String
  ignoreLeafNodes : List String
  forceIndexOneFor : List String
  exceptionsToIndexOneForcing : List String
  disableLeafNodeIndexing : Bool
  startAtTag : Option String
  includeLeafValuePredicate : Bool
deriving Repr

/-- raw option record before the defaulting block of xml-xpaths.js: a field
is none when the configuration leaves it undefined. -/
structure RawOptions where
  nspace : Option String := none
  attributesToIncludeInPath : Option (List String) := none
  ignoreLeafNodes : Option (List String) := none
  forceIndexOneFor : Option (List String) := none
  exceptionsToIndexOneForcing : Option (List String) := none
  disableLeafNodeIndexing : Option Bool := none
  startAtTag : Option String := none
  includeLeafValuePredicate : Option Bool := none
deriving Repr

/-- JavaScript x || dflt for string options: undefined and the empty string
are falsy. -/
def jsOrStr (v : Option String) (dflt : String) : String :=
  match v with
  | some s => if s = "" then dflt else s
  | none => dflt

/-- JavaScript x || null for the startAtTag option: the empty string
collapses to null. -/
def jsOrNullStr (v : Option String) : Option String :=
  match v with
  | some s => if s = "" then none else some s
  | none => none

/-- defaulting block of xml-xpaths.js lines 32-44: every recognized option is
filled with its default, and includeLeafValuePredicate, when absent, becomes
the negation of the (already defaulted) disableLeafNodeIndexing. -/
def normalizeOptions (r : RawOptions) : Options :=
  let disable := r.disableLeafNodeIndexing.getD false
  { nspace := jsOrStr r.nspace "d"
    attributesToIncludeInPath := r.attributesToIncludeInPath.getD []
    ignoreLeafNodes := r.ignoreLeafNodes.getD []
    forceIndexOneFor := r.forceIndexOneFor.getD []
    exceptionsToIndexOneForcing := r.exceptionsToIndexOneForcing.getD []
    disableLeafNodeIndexing := disable
    startAtTag := jsOrNullStr r.startAtTag
    includeLeafValuePredicate :=
      match r.includeLeafValuePredicate with
      | some b => b
      | none => !disable }

/-! ## Top-down variant: traversal -/

/-- attribute-predicate string of xml-xpaths.js: for each configured
attribute name present on the node, in configuration order, append
an equality selector. This loop appears verbatim both in traverse
(lines 273-277) and in buildStartPathForElement (lines 94-98). -/
def attrStep (attrs : List (String × String)) (acc : String) (a : String) : String :=
  match getAttr a attrs with
  | some v => acc ++ "[@" ++ a ++ "=\"" ++ v ++ "\"]"
  | none => acc

def attrPredStr (names : List String) (attrs : List (String × String)) : String :=
  names.foldl (attrStep attrs) ""

/-- index rendering rule of xml-xpaths.js: for index 1 the bracket is shown
only when forcing applies (empty forceIndexOneFor list forces for all tags, a
non-empty list only for listed tags) and the tag is not in the exception
list; a larger index is always shown. This block appears verbatim both in
traverse (lines 286-303) and in buildStartPathForElement (lines 128-142). -/
def showIndexOne (o : Options) (local_ : String) : Bool :=
  if o.exceptionsToIndexOneForcing.contains local_ then false
  else if o.forceIndexOneFor.isEmpty then true
  else o.forceIndexOneFor.contains local_

def indexStrFor (o : Options) (local_ : String) (idx : Nat) : String :=
  if idx = 1 then
    if showIndexOne o local_ then "[1]" else ""
  else "[" ++ natRepr idx ++ "]"

/-- does the child list hold at least one element node
(children.length === 0 test after the nodeType filter). -/
def hasElemChild : XList → Bool
  | .nil => false
  | .cons c r => isElem c || hasElemChild r

/-- sibling counter lookup: counters[siblingKey] || 0. -/
def lookupCnt (k : String) : List (String × Nat) → Nat
  | [] => 0
  | (k2, v) :: r => if k2 = k then v else lookupCnt k r

/-- sibling counter update: counters[siblingKey] = v. -/
def setCnt (k : String) (v : Nat) : List (String × Nat) → List (String × Nat)
  | [] => [(k, v)]
  | (k2, v2) :: r => if k2 = k then (k2, v) :: r else (k2, v2) :: setCnt k v r

namespace Xp

mutual

/-- traverse of xml-xpaths.js lines 238-308. A non-element is skipped; an
element whose local name is in ignoreLeafNodes is skipped with its whole
subtree; an element with no element children and non-empty trimmed text is a
leaf and emits one row, with the leaf-value predicate appended to the
accumulated path when includeLeafValuePredicate holds; otherwise the element
children are processed in order with per-identity sibling counters. -/
def traverse (o : Options) : XNode → String → List String
  | .text _, _ => []
  | .elem tag attrs children, currentPath =>
    let nodeLocal := localNameOf tag
    if o.ignoreLeafNodes.contains nodeLocal then []
    else if hasElemChild children = false ∧ jsTrim (textContentL children) ≠ "" then
      let t := jsTrim (textContentL children)
      if o.includeLeafValuePredicate then
        [t ++ " : " ++ currentPath ++ "[" ++ o.nspace ++ ":" ++ nodeLocal ++ "=\"" ++ t ++ "\"]"]
      else
        [t ++ " : " ++ currentPath]
    else
      traverseChildren o children currentPath []

/-- child loop of traverse (lines 267-307): text children are skipped by the
nodeType filter, each element child gets a segment built from its tag,
attribute predicates and rendered per-identity sibling index, and is then
traversed with the extended path. -/
def traverseChildren (o : Options) : XList → String → List (String × Nat) → List String
  | .nil, _, _ => []
  | .cons c rest, currentPath, counters =>
    match c with
    | .text s => traverseChildren o rest currentPath counters
    | .elem ctag cattrs cch =>
      let childLocal := localNameOf ctag
      let tg := o.nspace ++ ":" ++ childLocal
      let predicateStr := attrPredStr o.attributesToIncludeInPath cattrs
      let key := tg ++ predicateStr
      let idx := lookupCnt key counters + 1
      let counters2 := setCnt key idx counters
      let newPath := currentPath ++ "/" ++ tg ++ predicateStr ++ indexStrFor o childLocal idx
      traverse o (.elem ctag cattrs cch) newPath ++ traverseChildren o rest currentPath counters2

end

end Xp

/-! ## Top-down variant: start node resolution -/

mutual

/-- first element (preorder document order) matching the given element test,
as a childNodes index path; this is the order of getElementsByTagName lookups
and of the DFS fallback findFirstElementByLocalName of xml-xpaths.js. -/
def findPosN (p : XNode → Bool) : XNode → Option (List Nat)
  | .text s => if p (.text s) then some [] else none
  | .elem tag attrs ch =>
    if p (.elem tag attrs ch) then some [] else findPosL p ch 0

def findPosL (p : XNode → Bool) : XList → Nat → Option (List Nat)
  | .nil, _ => none
  | .cons c r, i =>
    match findPosN p c with
    | some tail => some (i :: tail)
    | none => findPosL p r (i + 1)

end

/-- element test for the namespace-aware lookup: localName equals the wanted
tag (case-sensitive). -/
def byLocal (want : String) (n : XNode) : Bool :=
  isElem n && localNameOf (tagOf n) == want

/-- element test for the legacy lookup: nodeName equals the attempted tag. -/
def byNodeName (want : String) (n : XNode) : Bool :=
  isElem n && tagOf n == want

/-- character-list lower-casing (String.prototype.toLowerCase). -/
def lowerChars (l : List Char) : List Char := l.map Char.toLower

/-- element test for the DFS fallback: lower-cased localName equals the
already lower-cased wanted tag. -/
def byLocalCI (wantLower : List Char) (n : XNode) : Bool :=
  isElem n && lowerChars (localNameOf (tagOf n)).data == wantLower

/-- node at a childNodes index path, with a junk default for invalid paths. -/
def nodeAt (root : XNode) : List Nat → XNode
  | [] => root
  | i :: rest => nodeAt ((childrenOf root).toList.getD i (.text "")) rest

/-- sibling context of the node at a position: its parent's childNodes list
and its index in it. For the document element the document's childNodes are
modelled as the single-element list holding it. -/
def ctxAt (root : XNode) : List Nat → List XNode × Nat
  | [] => ([root], 0)
  | [i] => ((childrenOf root).toList, i)
  | i :: rest => ctxAt ((childrenOf root).toList.getD i (.text "")) rest

/-- buildStartPathForElement of xml-xpaths.js lines 87-145, with the node
given by its parent's childNodes list and its index there: the double-slash
prefixed namespace-qualified local name, the attribute predicates, and the
sibling index among element siblings of the same local name and predicate
string, rendered by the forcing rule. -/
def buildStartPathForElement (o : Options) (sibs : List XNode) (i : Nat) : String :=
  match sibs.getD i (.text "") with
  | .text _ => ""
  | .elem tag attrs _ =>
    let local_ := localNameOf tag
    let predicateStr := attrPredStr o.attributesToIncludeInPath attrs
    let sameIdent : XNode → Bool := fun s =>
      isElem s && localNameOf (tagOf s) == local_ &&
        attrPredStr o.attributesToIncludeInPath (attrsOf s) == predicateStr
    let index := ((sibs.take i).filter sameIdent).length + 1
    "//" ++ o.nspace ++ ":" ++ local_ ++ predicateStr ++ indexStrFor o local_ index

/-- join("\n") of the result rows. -/
def joinNL (rows : List String) : String :=
  String.mk (interL ['\n'] (rows.map String.data))

/-- start-node resolution cascade of generateXpathList for a truthy
startAtTag: namespace-aware localName lookup, plain and namespaced nodeName
lookups, then the case-insensitive DFS. -/
def resolveStart (root : XNode) (o : Options) (stag : String) : Option (List Nat) :=
  match findPosN (byLocal stag) root with
  | some p => some p
  | none =>
    match findPosN (byNodeName stag) root with
    | some p => some p
    | none =>
      match findPosN (byNodeName (o.nspace ++ ":" ++ stag)) root with
      | some p => some p
      | none => findPosN (byLocalCI (lowerChars stag.data)) root

/-- the results list of generateXpathList, before joining. -/
def generateRows (root : XNode) (o : Options) : List String :=
  let stag := o.startAtTag.getD ""
  let startPos : Option (List Nat) := if stag = "" then none else resolveStart root o stag
  match startPos with
  | some p =>
    let ctx := ctxAt root p
    Xp.traverse o (nodeAt root p) (buildStartPathForElement o ctx.1 ctx.2)
  | none =>
    Xp.traverse o root ("//" ++ o.nspace ++ ":" ++ localNameOf (tagOf root) ++ "[1]")

/-- generateXpathList of xml-xpaths.js lines 150-236, on an already parsed
document element: resolve the start node when startAtTag is truthy, build its
start path, else fall back to the document element with the fixed root path,
traverse, and join the rows. -/
def generateXpathList (root : XNode) (o : Options) : String :=
  joinNL (generateRows root o)

/-! ## Bottom-up variant (part_000) -/

/-- raw configuration record of part_000 (loaded JSON, no defaulting pass):
a field is none when the JSON leaves it absent. -/
structure CfgP where
  attributesToIncludeInPath : Option (List String) := none
  ignoreLeafNodes : Option (List String) := none
  childFilters : Option (List String) := none
  includeLeafValuePredicate : Bool := false
  startAtTag : Option String := none

/-- esc of part_000 lines 49-52: every double-quote character of the value is
doubled; nothing else changes. -/
def escChars : List Char → List Char
  | [] => []
  | c :: r => (if c = '"' then ['"', '"'] else [c]) ++ escChars r

/-- esc on strings. -/
def esc (v : String) : String := String.mk (escChars v.data)

/-- getSiblingIndex of part_000 lines 29-37, walking the previousSibling
chain (given here as the list of preceding siblings, nearest first) and
counting elements with the same nodeName, plus one. -/
def getSiblingIndex (name : String) : List XNode → Nat
  | [] => 1
  | s :: rest =>
    (if isElem s && tagOf s == name then 1 else 0) + getSiblingIndex name rest

/-- first index of a pattern in a character list
(JavaScript String.prototype.indexOf). -/
def firstIdxOfL (pat : List Char) : List Char → Option Nat
  | [] => if pat = [] then some 0 else none
  | c :: rest =>
    if (c :: rest).take pat.length = pat then some 0
    else (firstIdxOfL pat rest).map (· + 1)

/-- trimStart of part_000 lines 40-46: cut the path at the first occurrence
of the needle built from the hard-coded d prefix and the start tag. -/
def trimStart (tag : String) (xp : String) : String :=
  if tag = "" then xp
  else
    match firstIdxOfL ("/d:" ++ tag).data xp.data with
    | none => xp
    | some i => String.mk (xp.data.drop i)

/-- getFirstChildElementByName of part_000 lines 55-60 (case-sensitive
nodeName match over child nodes). -/
def getFirstChildElementByName (ch : XList) (name : String) : Option XNode :=
  match ch with
  | .nil => none
  | .cons c r =>
    if isElem c && tagOf c == name then some c else getFirstChildElementByName r name

/-- legacy child-value predicates of buildPathForElement lines 107-117: one
equality predicate per element child with non-empty trimmed text whose
nodeName is not in ignoreLeafNodes. -/
def legacyChildFilters (ignore : List String) : XList → List String
  | .nil => []
  | .cons c r =>
    (match c with
     | .elem ctag _ cch =>
       let txt := jsTrim (textContentL cch)
       if txt ≠ "" ∧ ¬ignore.contains ctag then
         ["d:" ++ ctag ++ "=\"" ++ esc txt ++ "\""]
       else []
     | .text _ => []) ++ legacyChildFilters ignore r

/-- one childFilters entry of buildPathForElement lines 87-106: prefer the
first same-named child element with non-empty, non-ignored trimmed text;
otherwise fall back to a same-named attribute when present. -/
def childFilterFor (ignore : List String) (attrs : List (String × String)) (ch : XList)
    (childName : String) : List String :=
  let attrFallback : List String :=
    match getAttr childName attrs with
    | some v => ["@" ++ childName ++ "=\"" ++ esc v ++ "\""]
    | none => []
  match getFirstChildElementByName ch childName with
  | some cEl =>
    let txtRaw := jsTrim (textContentN cEl)
    if txtRaw ≠ "" ∧ ¬ignore.contains (tagOf cEl) then
      ["d:" ++ tagOf cEl ++ "=\"" ++ esc txtRaw ++ "\""]
    else attrFallback
  | none => attrFallback

/-- one path segment of buildPathForElement of part_000 lines 66-132, for the
node at index i of its parent's childNodes list: the hard-coded d-prefixed
nodeName, the attribute-filter bracket, the child-filter bracket, and the
always-rendered sibling index. -/
def segFor (cfg : CfgP) (sibs : List XNode) (i : Nat) : String :=
  match sibs.getD i (.text "") with
  | .text _ => ""
  | .elem name attrs ch =>
    let attrFilters : List String :=
      match cfg.attributesToIncludeInPath with
      | none => []
      | some names =>
        attrs.filterMap (fun a =>
          if names.contains a.1 then some ("@" ++ a.1 ++ "=\"" ++ esc a.2 ++ "\"") else none)
    let useCF : Bool :=
      match cfg.childFilters with
      | some cf => !cf.isEmpty
      | none => false
    let childFilters : List String :=
      if useCF then
        (cfg.childFilters.getD []).foldl
          (fun acc childName =>
            acc ++ childFilterFor (cfg.ignoreLeafNodes.getD []) attrs ch childName) []
      else if cfg.includeLeafValuePredicate then
        legacyChildFilters (cfg.ignoreLeafNodes.getD []) ch
      else []
    let seg1 := "/d:" ++ name ++
      (if attrFilters.isEmpty then "" else "[" ++ String.intercalate " and " attrFilters ++ "]")
    let seg2 := seg1 ++
      (if childFilters.isEmpty then "" else "[" ++ String.intercalate " and " childFilters ++ "]")
    seg2 ++ "[" ++ natRepr (getSiblingIndex name ((sibs.take i).reverse)) ++ "]"

/-- buildPathForElement of part_000 lines 66-132 along a whole ancestor
chain, root first: the recursion on parentNode concatenates the parent path
before the node's own segment. -/
def buildPathForElement (cfg : CfgP) (chain : List (List XNode × Nat)) : String :=
  chain.foldl (fun acc st => acc ++ segFor cfg st.1 st.2) ""

mutual

/-- chains (parent childNodes list and index, from the root down) of all
element nodes of a subtree, in document order; this enumerates the node set
that the xpath select of all elements returns in collectLeafRows. -/
def chainsN (pfx : List (List XNode × Nat)) (sibs : List XNode) (i : Nat) :
    XNode → List (List (List XNode × Nat))
  | .text _ => []
  | .elem _ _ ch =>
    (pfx ++ [(sibs, i)]) :: chainsI (pfx ++ [(sibs, i)]) ch.toList 0 ch

def chainsI (pfx : List (List XNode × Nat)) (sibs : List XNode) (i : Nat) :
    XList → List (List (List XNode × Nat))
  | .nil => []
  | .cons c rest => chainsN pfx sibs i c ++ chainsI pfx sibs (i + 1) rest

end

/-- chains of all elements of the document, document order, starting at the
document element (whose document-level sibling list is itself alone). -/
def allElemChains (root : XNode) : List (List (List XNode × Nat)) :=
  chainsN [] [root] 0 root

/-- result row of part_000. -/
structure LeafRow where
  type : String
  text : String
  xpath : String
deriving DecidableEq, Repr

/-- collectLeafRows of part_000 lines 135-171: scan every element in document
order, keep those with no element children, non-empty trimmed text and a
nodeName not in ignoreLeafNodes, and emit a leaf row whose path is built by
buildPathForElement and, when startAtTag is truthy, trimmed by trimStart. -/
def collectLeafRows (cfg : CfgP) (root : XNode) : List LeafRow :=
  (allElemChains root).filterMap (fun chain =>
    match chain.getLast? with
    | none => none
    | some st =>
      match st.1.getD st.2 (.text "") with
      | .text _ => none
      | .elem tag _ ch =>
        if hasElemChild ch then none
        else
          let txt := jsTrim (textContentL ch)
          if txt = "" then none
          else if (cfg.ignoreLeafNodes.getD []).contains tag then none
          else
            let xp := buildPathForElement cfg chain
            let xp2 :=
              match cfg.startAtTag with
              | some t => if t = "" then xp else trimStart t xp
              | none => xp
            some { type := "leaf", text := txt, xpath := xp2 })

/-! ## Leaf classification (spec section 4.2) -/

mutual

/-- count of elements classified Leaf by the traversal's classification: an
element in ignoreLeafNodes is Ignored together with its subtree, an element
with no element children and non-empty trimmed text is a Leaf, any other
element is Internal and classified through its children. -/
def countLeaves (o : Options) : XNode → Nat
  | .text _ => 0
  | .elem tag _ ch =>
    if o.ignoreLeafNodes.contains (localNameOf tag) then 0
    else if hasElemChild ch = false ∧ jsTrim (textContentL ch) ≠ "" then 1
    else countLeavesL o ch

def countLeavesL (o : Options) : XList → Nat
  | .nil => 0
  | .cons c r => countLeaves o c + countLeavesL o r

end

mutual

theorem traverse_length (o : Options) (n : XNode) (p : String) :
    (Xp.traverse o n p).length = countLeaves o n := by
  match n with
  | .text s => simp [Xp.traverse, countLeaves]
  | .elem tag attrs ch =>
    rw [Xp.traverse, countLeaves]
    split_ifs with h1 h2 h3
    · rfl
    · rfl
    · rfl
    · exact traverseChildren_length o ch p []

theorem traverseChildren_length (o : Options) (l : XList) (p : String)
    (cnt : List (String × Nat)) :
    (Xp.traverseChildren o l p cnt).length = countLeavesL o l := by
  match l with
  | .nil => simp [Xp.traverseChildren, countLeavesL]
  | .cons c r =>
    match c with
    | .text s =>
      rw [Xp.traverseChildren, countLeavesL]
      simp [countLeaves, traverseChildren_length]
    | .elem ctag cattrs cch =>
      rw [Xp.traverseChildren, countLeavesL]
      simp only [List.length_append]
      rw [traverse_length, traverseChildren_length]

end

/-! ## Concrete scenario inputs -/

/-- tree of the concrete scenario of the spec. -/
def treeC1 : XNode :=
  .elem "root" []
    (.cons (.elem "item" [("id", "7")]
      (.cons (.elem "name" [] (.cons (.text "Widget") .nil)) .nil)) .nil)

/-- raw configuration of the concrete scenario. -/
def rawC1 : RawOptions :=
  { nspace := some "d", attributesToIncludeInPath := some ["id"] }

/-- the same configuration for the bottom-up variant, with leaf-value
predicate inclusion enabled. -/
def cfgC1p : CfgP :=
  { attributesToIncludeInPath := some ["id"], includeLeafValuePredicate := true }

/-- tree with a leaf under an element whose tag is in ignoreLeafNodes. -/
def treeC2 : XNode :=
  .elem "root" []
    (.cons (.elem "I" [] (.cons (.elem "x" [] (.cons (.text "t") .nil)) .nil)) .nil)

def rawC2 : RawOptions := { ignoreLeafNodes := some ["I"] }

def cfgC2p : CfgP := { ignoreLeafNodes := some ["I"] }

/-- tree whose leaf text holds a double-quote character. -/
def treeC3 : XNode :=
  .elem "r" [] (.cons (.elem "n" [] (.cons (.text "He said \"hi\"") .nil)) .nil)

def cfgC3p : CfgP := { includeLeafValuePredicate := true }

/-- three same-tag siblings with attribute values 1, 2, 1. -/
def treeC5 : XNode :=
  .elem "p" []
    (.cons (.elem "a" [("x", "1")] (.cons (.text "u") .nil))
     (.cons (.elem "a" [("x", "2")] (.cons (.text "v") .nil))
      (.cons (.elem "a" [("x", "1")] (.cons (.text "w") .nil)) .nil)))

def rawC5 : RawOptions := { attributesToIncludeInPath := some ["x"] }

def cfgC5p : CfgP := { attributesToIncludeInPath := some ["x"] }

/-- single element with index 1 and a leaf text. -/
def treeC6 : XNode := .elem "a" [] (.cons (.text "T") .nil)

def cfgC6p : CfgP := {}

/-! ## Claim C1 -/

/-- C1 (counterexample): on the tree root, item id 7, name Widget with
namespace d and attributesToIncludeInPath id, neither variant emits the
claimed path /d:root[1]/d:item[@id="7"][1]/d:name[d:name="Widget"][1]:
the top-down variant emits a different line and the bottom-up variant a
different path list. -/
theorem C1_cex :
    generateXpathList treeC1 (normalizeOptions rawC1) ≠
      "Widget : /d:root[1]/d:item[@id=\"7\"][1]/d:name[d:name=\"Widget\"][1]" ∧
    (collectLeafRows cfgC1p treeC1).map LeafRow.xpath ≠
      ["/d:root[1]/d:item[@id=\"7\"][1]/d:name[d:name=\"Widget\"][1]"] := by
  exact ⟨by decide, by decide⟩

/-- C1 (amended): on that input each variant emits exactly one row with text
Widget; the top-down variant's path is
//d:root[1]/d:item[@id="7"][1]/d:name[1][d:name="Widget"] (double-slash
prefix, sibling index before the leaf-value predicate), and the bottom-up
variant's path is
/d:root[d:item="Widget"][1]/d:item[@id="7"][d:name="Widget"][1]/d:name[1]
(child-value predicates on ancestor segments, none on the leaf). -/
theorem C1_amended :
    generateXpathList treeC1 (normalizeOptions rawC1) =
      "Widget : //d:root[1]/d:item[@id=\"7\"][1]/d:name[1][d:name=\"Widget\"]" ∧
    collectLeafRows cfgC1p treeC1 =
      [{ type := "leaf", text := "Widget",
         xpath := "/d:root[d:item=\"Widget\"][1]/d:item[@id=\"7\"][d:name=\"Widget\"][1]/d:name[1]" }] := by
  exact ⟨by decide, by decide⟩

/-! ## Claim C2 -/

/-- C2 (counterexample): with ignoreLeafNodes containing I, the tree
root, I, x(t) has no element classified Leaf (the I subtree is Ignored), and
the top-down variant emits nothing, yet the bottom-up collectLeafRows emits
one row for the leaf x nested inside the Ignored subtree, so emitted rows do
not equal classified leaves and an Ignored subtree does contribute a row. -/
theorem C2_cex :
    countLeaves (normalizeOptions rawC2) treeC2 = 0 ∧
    generateXpathList treeC2 (normalizeOptions rawC2) = "" ∧
    collectLeafRows cfgC2p treeC2 =
      [{ type := "leaf", text := "t", xpath := "/d:root[1]/d:I[1]/d:x[1]" }] := by
  exact ⟨by decide, by decide, by decide⟩

/-- C2 (amended): for the top-down variant the claim holds: for every tree,
configuration and path prefix, the number of emitted rows equals the number
of elements classified Leaf, and an element whose local tag name is in
ignoreLeafNodes contributes no row at all (its subtree is never entered). -/
theorem C2_amended :
    (∀ (o : Options) (n : XNode) (p : String),
      (Xp.traverse o n p).length = countLeaves o n) ∧
    (∀ (o : Options) (tag : String) (attrs : List (String × String)) (ch : XList) (p : String),
      o.ignoreLeafNodes.contains (localNameOf tag) = true →
      Xp.traverse o (.elem tag attrs ch) p = []) := by
  refine ⟨traverse_length, ?_⟩
  intro o tag attrs ch p h
  rw [Xp.traverse]
  rw [if_pos h]

/-- C2 (witness): the amended statement applied at a concrete ignored
element. -/
theorem C2_witness :
    (normalizeOptions rawC2).ignoreLeafNodes.contains (localNameOf "I") = true ∧
    Xp.traverse (normalizeOptions rawC2)
      (.elem "I" [] (.cons (.elem "x" [] (.cons (.text "t") .nil)) .nil)) "//d:root[1]" = [] := by
  exact ⟨by decide, C2_amended.2 (normalizeOptions rawC2) "I" []
    (.cons (.elem "x" [] (.cons (.text "t") .nil)) .nil) "//d:root[1]" (by decide)⟩

/-! ## Claim C3 -/

theorem escChars_append (a b : List Char) :
    escChars (a ++ b) = escChars a ++ escChars b := by
  induction a with
  | nil => simp [escChars]
  | cons c r ih => simp [escChars, ih]

/-- C3 (counterexample): the top-down variant embeds predicate values with
no escaping at all: for the leaf text He said "hi" under default options, the
emitted line carries the text verbatim inside the leaf-value predicate, and
differs from the line the claim requires, in which each double quote of the
value would be doubled. -/
theorem C3_cex :
    generateXpathList treeC3 (normalizeOptions {}) =
      "He said \"hi\" : //d:r[1]/d:n[1][d:n=\"He said \"hi\"\"]" ∧
    generateXpathList treeC3 (normalizeOptions {}) ≠
      "He said \"hi\" : //d:r[1]/d:n[1][d:n=\"He said \"\"hi\"\"\"]" := by
  exact ⟨by decide, by decide⟩

/-- C3 (amended): quote doubling holds in the bottom-up variant, whose esc is
applied to every embedded attribute or text value: esc distributes over
concatenation, doubles a double-quote character, leaves any other character
unchanged, and on the concrete tree the row keeps the raw text He said "hi"
while the emitted path embeds He said ""hi"" in the parent's child-value
predicate. The top-down variant performs no escaping (see the
counterexample). -/
theorem C3_amended :
    (∀ a b : String, esc (a ++ b) = esc a ++ esc b) ∧
    esc "\"" = "\"\"" ∧
    (∀ c : Char, c ≠ '"' → esc (String.mk [c]) = String.mk [c]) ∧
    collectLeafRows cfgC3p treeC3 =
      [{ type := "leaf", text := "He said \"hi\"",
         xpath := "/d:r[d:n=\"He said \"\"hi\"\"\"][1]/d:n[1]" }] := by
  refine ⟨?_, by decide, ?_, by decide⟩
  · intro a b
    apply String.ext
    simp [esc, String.data_append, escChars_append]
  · intro c hc
    simp [esc, escChars, hc]

/-- C3 (witness): the amended statement applied at a concrete non-quote
character and concrete strings. -/
theorem C3_witness :
    ('x' : Char) ≠ '"' ∧ esc (String.mk ['x']) = String.mk ['x'] ∧
    esc ("ab" ++ "c\"d") = esc "ab" ++ esc "c\"d" := by
  exact ⟨by decide, C3_amended.2.2.1 'x' (by decide), C3_amended.1 "ab" "c\"d"⟩

/-! ## Claim C4 -/

/-- C4 (counterexample): in the bottom-up variant with leaf-value predicate
inclusion enabled, the leaf's trimmed text appears as a child-value predicate
on the parent's segment, and the leaf's own segment carries no value
predicate: the emitted path for the tree r, n(T) is /d:r[d:n="T"][1]/d:n[1],
not the claimed shape /d:r[1]/d:n[d:n="T"][1] with the predicate on the
segment addressing the leaf. -/
theorem C4_cex :
    (collectLeafRows cfgC3p (.elem "r" [] (.cons (.elem "n" [] (.cons (.text "T") .nil)) .nil))).map
      LeafRow.xpath = ["/d:r[d:n=\"T\"][1]/d:n[1]"] ∧
    ("/d:r[d:n=\"T\"][1]/d:n[1]" : String) ≠ "/d:r[1]/d:n[d:n=\"T\"][1]" := by
  exact ⟨by decide, by decide⟩

/-- C4 (amended): in the top-down variant the claim holds: for every leaf
element (not ignored, no element children, non-empty trimmed text) with
leaf-value-predicate inclusion enabled, the emitted row appends the equality
predicate built from the leaf's own qualified tag name and full trimmed text
to the accumulated path, whose last segment addresses the leaf itself. In the
bottom-up variant the predicate instead lands on the parent's segment (see
the counterexample). -/
theorem C4_amended (o : Options) (tag : String) (attrs : List (String × String))
    (ch : XList) (p : String)
    (h1 : o.ignoreLeafNodes.contains (localNameOf tag) = false)
    (h2 : hasElemChild ch = false)
    (h3 : jsTrim (textContentL ch) ≠ "")
    (h4 : o.includeLeafValuePredicate = true) :
    Xp.traverse o (.elem tag attrs ch) p =
      [jsTrim (textContentL ch) ++ " : " ++ p ++ "[" ++ o.nspace ++ ":" ++ localNameOf tag ++
        "=\"" ++ jsTrim (textContentL ch) ++ "\"]"] := by
  rw [Xp.traverse]
  split_ifs with g1 g2
  · rw [h1] at g1; exact absurd g1 (by decide)
  · simp [h4]
  · exact absurd ⟨h2, h3⟩ g2

/-- C4 (witness): the amended statement applied at a concrete leaf. -/
theorem C4_witness :
    (normalizeOptions {}).ignoreLeafNodes.contains (localNameOf "n") = false ∧
    hasElemChild (.cons (.text "T") .nil) = false ∧
    jsTrim (textContentL (.cons (.text "T") .nil)) ≠ "" ∧
    (normalizeOptions {}).includeLeafValuePredicate = true ∧
    Xp.traverse (normalizeOptions {}) (.elem "n" [] (.cons (.text "T") .nil)) "//d:r[1]/d:n[1]" =
      ["T : //d:r[1]/d:n[1][d:n=\"T\"]"] := by
  refine ⟨by decide, by decide, by decide, by decide, ?_⟩
  have h := C4_amended (normalizeOptions {}) "n" [] (.cons (.text "T") .nil) "//d:r[1]/d:n[1]"
    (by decide) (by decide) (by decide) (by decide)
  rw [h]
  decide

/-! ## Claim C5 -/

/-- C5 (counterexample): the bottom-up getSiblingIndex groups by tag name
alone: on the three siblings a(x=1), a(x=2), a(x=1) with
attributesToIncludeInPath x, the bottom-up variant assigns indices 1, 2, 3,
so the emitted paths differ from the claimed grouping 1, 1, 2. -/
theorem C5_cex :
    (collectLeafRows cfgC5p treeC5).map LeafRow.xpath =
      ["/d:p[1]/d:a[@x=\"1\"][1]", "/d:p[1]/d:a[@x=\"2\"][2]", "/d:p[1]/d:a[@x=\"1\"][3]"] ∧
    (collectLeafRows cfgC5p treeC5).map LeafRow.xpath ≠
      ["/d:p[1]/d:a[@x=\"1\"][1]", "/d:p[1]/d:a[@x=\"2\"][1]", "/d:p[1]/d:a[@x=\"1\"][2]"] := by
  exact ⟨by decide, by decide⟩

/-- C5 (amended): the claimed grouping holds for the top-down variant, whose
sibling counters are keyed by the qualified tag name concatenated with the
attribute-predicate string: on the concrete siblings it assigns 1, 1, 2. The
bottom-up getSiblingIndex instead counts preceding element siblings with the
same nodeName only, as its closed form shows. -/
theorem C5_amended :
    generateXpathList treeC5 (normalizeOptions rawC5) =
      "u : //d:p[1]/d:a[@x=\"1\"][1][d:a=\"u\"]\n" ++
      "v : //d:p[1]/d:a[@x=\"2\"][1][d:a=\"v\"]\n" ++
      "w : //d:p[1]/d:a[@x=\"1\"][2][d:a=\"w\"]" ∧
    (∀ (name : String) (prev : List XNode),
      getSiblingIndex name prev =
        1 + (prev.filter (fun s => isElem s && tagOf s == name)).length) := by
  refine ⟨by decide, ?_⟩
  intro name prev
  induction prev with
  | nil => simp [getSiblingIndex]
  | cons s rest ih =>
    by_cases h : isElem s && tagOf s == name
    · simp [getSiblingIndex, h, ih]; omega
    · simp [getSiblingIndex, h, ih]

/-! ## Claim C6 -/

/-- C6 (counterexample): the bottom-up buildPathForElement always renders the
sibling index: the single element a with index 1 yields the segment /d:a[1]
even though part_000 consults no forcing configuration at all, so with the
claim's configuration forceIndexOneFor = b-only (which part_000 ignores) the
index-1 bracket is rendered although rendering is not forced for tag a. -/
theorem C6_cex :
    (collectLeafRows cfgC6p treeC6).map LeafRow.xpath = ["/d:a[1]"] ∧
    ("/d:a[1]" : String) ≠ "/d:a" := by
  exact ⟨by decide, by decide⟩

/-- C6 (amended): the claimed rule holds for the top-down variant's shared
index-rendering logic: for index exactly 1 the bracket is rendered if and
only if forcing applies (empty forceIndexOneFor forces for all tags, a
non-empty list only for listed tags) and the tag is not in
exceptionsToIndexOneForcing; any larger index is always rendered. In the
bottom-up variant every segment ends with its bracketed sibling index,
unconditionally. -/
theorem C6_amended :
    (∀ (o : Options) (local_ : String),
      (indexStrFor o local_ 1 = "[1]" ↔
        ((o.forceIndexOneFor = [] ∨ local_ ∈ o.forceIndexOneFor) ∧
          local_ ∉ o.exceptionsToIndexOneForcing))) ∧
    (∀ (o : Options) (local_ : String) (idx : Nat), idx ≠ 1 →
      indexStrFor o local_ idx = "[" ++ natRepr idx ++ "]") ∧
    (∀ (cfg : CfgP) (sibs : List XNode) (i : Nat) (name : String)
      (attrs : List (String × String)) (ch : XList),
      sibs.getD i (.text "") = .elem name attrs ch →
      ∃ s, segFor cfg sibs i =
        s ++ "[" ++ natRepr (getSiblingIndex name ((sibs.take i).reverse)) ++ "]") := by
  refine ⟨?_, ?_, ?_⟩
  · intro o local_
    by_cases he : o.exceptionsToIndexOneForcing.contains local_ <;>
      by_cases hf : o.forceIndexOneFor.isEmpty <;>
        by_cases hm : o.forceIndexOneFor.contains local_ <;>
          simp [indexStrFor, showIndexOne, List.isEmpty_iff, List.contains, List.elem_iff]
            at he hf hm ⊢ <;>
            simp [he, hf, hm]
  · intro o local_ idx h
    simp [indexStrFor, h]
  · intro cfg sibs i name attrs ch h
    rw [segFor, h]
    exact ⟨_, rfl⟩

/-- C6 (witness): the amended statement applied at concrete inputs: with
default options the forced bracket appears for index 1, index 2 is always
rendered, and the bottom-up segment for the concrete element a ends with its
bracketed index. -/
theorem C6_witness :
    indexStrFor (normalizeOptions {}) "a" 1 = "[1]" ∧
    indexStrFor (normalizeOptions {}) "a" 2 = "[" ++ natRepr 2 ++ "]" ∧
    ∃ s, segFor cfgC6p [treeC6] 0 =
      s ++ "[" ++ natRepr (getSiblingIndex "a" (([treeC6].take 0).reverse)) ++ "]" := by
  refine ⟨?_, C6_amended.2.1 (normalizeOptions {}) "a" 2 (by decide), ?_⟩
  · exact (C6_amended.1 (normalizeOptions {}) "a").mpr ⟨Or.inl rfl, by decide⟩
  · exact C6_amended.2.2 cfgC6p [treeC6] 0 "a" [] (.cons (.text "T") .nil) rfl

/-! ## Claim C9 -/

/-- C9: with an empty raw configuration the normalizer yields
includeLeafValuePredicate true and disableLeafNodeIndexing false; an
explicitly supplied includeLeafValuePredicate is kept as given, regardless of
disableLeafNodeIndexing; and when it is left undefined it becomes the
negation of the defaulted disableLeafNodeIndexing. -/
theorem C9_defaulting :
    (normalizeOptions {}).includeLeafValuePredicate = true ∧
    (normalizeOptions {}).disableLeafNodeIndexing = false ∧
    (∀ (r : RawOptions) (b : Bool), r.includeLeafValuePredicate = some b →
      (normalizeOptions r).includeLeafValuePredicate = b) ∧
    (∀ r : RawOptions, r.includeLeafValuePredicate = none →
      (normalizeOptions r).includeLeafValuePredicate = !(r.disableLeafNodeIndexing.getD false)) := by
  refine ⟨rfl, rfl, ?_, ?_⟩
  · intro r b h
    simp [normalizeOptions, h]
  · intro r h
    simp [normalizeOptions, h]

def rawExplicit : RawOptions :=
  { includeLeafValuePredicate := some true, disableLeafNodeIndexing := some true }

def rawDisabledOnly : RawOptions := { disableLeafNodeIndexing := some true }

/-- C9 (witness): the theorem applied at concrete raw configurations: an
explicit includeLeafValuePredicate true wins although disableLeafNodeIndexing
true alone would default it to false, and with it undefined the default is
the negation of disableLeafNodeIndexing. -/
theorem C9_witness :
    rawExplicit.includeLeafValuePredicate = some true ∧
    (normalizeOptions rawExplicit).includeLeafValuePredicate = true ∧
    rawDisabledOnly.includeLeafValuePredicate = none ∧
    (normalizeOptions rawDisabledOnly).includeLeafValuePredicate = false := by
  refine ⟨rfl, C9_defaulting.2.2.1 rawExplicit true rfl, rfl, ?_⟩
  have h := C9_defaulting.2.2.2 rawDisabledOnly rfl
  simpa using h

/-! ## Claim C8: termination and single visits -/

mutual

/-- structural size of a node (counts every tree constructor). -/
def sizeN : XNode → Nat
  | .text _ => 1
  | .elem _ _ ch => 1 + sizeL ch

/-- structural size of a child list. -/
def sizeL : XList → Nat
  | .nil => 1
  | .cons c r => 1 + sizeN c + sizeL r

end

mutual

/-- fuel-indexed variant of traverse: identical branch for branch, but every
recursive call consumes one unit of fuel and exhausted fuel aborts with
none. Termination of the source traversal is the statement that the size of
the input tree is always enough fuel. -/
def traverseF (o : Options) : Nat → XNode → String → Option (List String)
  | 0, _, _ => none
  | _ + 1, .text _, _ => some []
  | fuel + 1, .elem tag attrs ch, currentPath =>
    let nodeLocal := localNameOf tag
    if o.ignoreLeafNodes.contains nodeLocal then some []
    else if hasElemChild ch = false ∧ jsTrim (textContentL ch) ≠ "" then
      let t := jsTrim (textContentL ch)
      if o.includeLeafValuePredicate then
        some [t ++ " : " ++ currentPath ++ "[" ++ o.nspace ++ ":" ++ nodeLocal ++ "=\"" ++ t ++ "\"]"]
      else
        some [t ++ " : " ++ currentPath]
    else
      traverseChildrenF o fuel ch currentPath []

/-- fuel-indexed variant of the child loop. -/
def traverseChildrenF (o : Options) :
    Nat → XList → String → List (String × Nat) → Option (List String)
  | 0, _, _, _ => none
  | _ + 1, .nil, _, _ => some []
  | fuel + 1, .cons c rest, currentPath, counters =>
    match c with
    | .text _ => traverseChildrenF o fuel rest currentPath counters
    | .elem ctag cattrs cch =>
      let childLocal := localNameOf ctag
      let tg := o.nspace ++ ":" ++ childLocal
      let predicateStr := attrPredStr o.attributesToIncludeInPath cattrs
      let key := tg ++ predicateStr
      let idx := lookupCnt key counters + 1
      let counters2 := setCnt key idx counters
      let newPath := currentPath ++ "/" ++ tg ++ predicateStr ++ indexStrFor o childLocal idx
      match traverseF o fuel (.elem ctag cattrs cch) newPath with
      | none => none
      | some rs =>
        match traverseChildrenF o fuel rest currentPath counters2 with
        | none => none
        | some rs2 => some (rs ++ rs2)

end

mutual

theorem traverseF_eq (o : Options) (fuel : Nat) (n : XNode) (p : String)
    (h : sizeN n ≤ fuel) : traverseF o fuel n p = some (Xp.traverse o n p) := by
  match fuel, n with
  | 0, n => exact absurd h (by cases n <;> simp [sizeN])
  | fuel + 1, .text s => simp [traverseF, Xp.traverse]
  | fuel + 1, .elem tag attrs ch =>
    rw [traverseF, Xp.traverse]
    split_ifs
    · rfl
    · rfl
    · rfl
    · exact traverseChildrenF_eq o fuel ch p []
        (by simp [sizeN] at h; omega)

theorem traverseChildrenF_eq (o : Options) (fuel : Nat) (l : XList) (p : String)
    (cnt : List (String × Nat)) (h : sizeL l ≤ fuel) :
    traverseChildrenF o fuel l p cnt = some (Xp.traverseChildren o l p cnt) := by
  match fuel, l with
  | 0, l => exact absurd h (by cases l <;> simp [sizeL])
  | fuel + 1, .nil => simp [traverseChildrenF, Xp.traverseChildren]
  | fuel + 1, .cons c rest =>
    match c with
    | .text s =>
      rw [traverseChildrenF, Xp.traverseChildren]
      exact traverseChildrenF_eq o fuel rest p cnt (by simp [sizeL, sizeN] at h; omega)
    | .elem ctag cattrs cch =>
      rw [traverseChildrenF, Xp.traverseChildren]
      rw [traverseF_eq o fuel _ _ (by simp [sizeL] at h; omega)]
      rw [traverseChildrenF_eq o fuel rest p _ (by simp [sizeL] at h; omega)]

end

mutual

/-- positions (childNodes index paths) of the elements the traverse recursion
processes past its ignore check, in visit order: a leaf is visited and closed,
an internal element is visited and followed by its children, an ignored
element or a text node contributes nothing. -/
def visitOrder (o : Options) : XNode → List Nat → List (List Nat)
  | .text _, _ => []
  | .elem tag _ ch, pos =>
    if o.ignoreLeafNodes.contains (localNameOf tag) then []
    else if hasElemChild ch = false ∧ jsTrim (textContentL ch) ≠ "" then [pos]
    else pos :: visitOrderL o ch pos 0

def visitOrderL (o : Options) : XList → List Nat → Nat → List (List Nat)
  | .nil, _, _ => []
  | .cons c r, pos, i => visitOrder o c (pos ++ [i]) ++ visitOrderL o r pos (i + 1)

end

mutual

/-- positions of the reachable non-ignored elements of a subtree in document
order: an element whose local name is in ignoreLeafNodes is cut off with its
whole subtree, every other element is reachable together with its reachable
descendants. This is the specification-side description of the node set the
traversal must visit. -/
def reachSpec (o : Options) : XNode → List Nat → List (List Nat)
  | .text _, _ => []
  | .elem tag _ ch, pos =>
    if o.ignoreLeafNodes.contains (localNameOf tag) then []
    else pos :: reachSpecL o ch pos 0

def reachSpecL (o : Options) : XList → List Nat → Nat → List (List Nat)
  | .nil, _, _ => []
  | .cons c r, pos, i => reachSpec o c (pos ++ [i]) ++ reachSpecL o r pos (i + 1)

end

theorem reachSpecL_of_no_elem (o : Options) (ch : XList) (pos : List Nat) (i : Nat)
    (h : hasElemChild ch = false) : reachSpecL o ch pos i = [] := by
  match ch with
  | .nil => simp [reachSpecL]
  | .cons c r =>
    match c with
    | .text s =>
      rw [reachSpecL, reachSpec]
      have h2 : hasElemChild r = false := by simpa [hasElemChild, isElem] using h
      simp [reachSpecL_of_no_elem o r pos (i + 1) h2]
    | .elem t a cch => simp [hasElemChild, isElem] at h

mutual

theorem visitOrder_eq_reachSpec (o : Options) (n : XNode) (pos : List Nat) :
    visitOrder o n pos = reachSpec o n pos := by
  match n with
  | .text s => rw [visitOrder, reachSpec]
  | .elem tag attrs ch =>
    rw [visitOrder, reachSpec]
    split_ifs with h1 h2
    · rfl
    · rw [reachSpecL_of_no_elem o ch pos 0 h2.1]
    · rw [visitOrderL_eq_reachSpecL]

theorem visitOrderL_eq_reachSpecL (o : Options) (l : XList) (pos : List Nat) (i : Nat) :
    visitOrderL o l pos i = reachSpecL o l pos i := by
  match l with
  | .nil => rw [visitOrderL, reachSpecL]
  | .cons c r =>
    rw [visitOrderL, reachSpecL, visitOrder_eq_reachSpec, visitOrderL_eq_reachSpecL]

end

mutual

theorem mem_visitOrder_take (o : Options) (n : XNode) (pos : List Nat) (q : List Nat)
    (h : q ∈ visitOrder o n pos) : q.take pos.length = pos := by
  match n with
  | .text s => rw [visitOrder] at h; exact absurd h (List.not_mem_nil q)
  | .elem tag attrs ch =>
    rw [visitOrder] at h
    split_ifs at h with h1 h2
    · exact absurd h (List.not_mem_nil q)
    · rw [List.mem_singleton] at h
      rw [h]
      exact List.take_length pos
    · rw [List.mem_cons] at h
      cases h with
      | inl h => rw [h]; exact List.take_length pos
      | inr h =>
        obtain ⟨j, _, hq⟩ := mem_visitOrderL_take o ch pos 0 q h
        have ht : (q.take (pos.length + 1)).take pos.length = (pos ++ [j]).take pos.length := by
          rw [hq]
        rw [List.take_take] at ht
        simpa [List.take_left] using ht

theorem mem_visitOrderL_take (o : Options) (l : XList) (pos : List Nat) (i : Nat)
    (q : List Nat) (h : q ∈ visitOrderL o l pos i) :
    ∃ j, i ≤ j ∧ q.take (pos.length + 1) = pos ++ [j] := by
  match l with
  | .nil => rw [visitOrderL] at h; exact absurd h (List.not_mem_nil q)
  | .cons c r =>
    rw [visitOrderL, List.mem_append] at h
    cases h with
    | inl h =>
      have ht := mem_visitOrder_take o c (pos ++ [i]) q h
      refine ⟨i, le_refl i, ?_⟩
      simpa using ht
    | inr h =>
      obtain ⟨j, hij, hq⟩ := mem_visitOrderL_take o r pos (i + 1) q h
      exact ⟨j, by omega, hq⟩

end

mutual

theorem visitOrder_nodup (o : Options) (n : XNode) (pos : List Nat) :
    (visitOrder o n pos).Nodup := by
  match n with
  | .text s => rw [visitOrder]; exact List.nodup_nil
  | .elem tag attrs ch =>
    rw [visitOrder]
    split_ifs with h1 h2
    · exact List.nodup_nil
    · simp
    · rw [List.nodup_cons]
      refine ⟨?_, visitOrderL_nodup o ch pos 0⟩
      intro hmem
      obtain ⟨j, _, hq⟩ := mem_visitOrderL_take o ch pos 0 pos hmem
      rw [List.take_of_length_le (by omega)] at hq
      have := congrArg List.length hq
      simp at this

theorem visitOrderL_nodup (o : Options) (l : XList) (pos : List Nat) (i : Nat) :
    (visitOrderL o l pos i).Nodup := by
  match l with
  | .nil => rw [visitOrderL]; exact List.nodup_nil
  | .cons c r =>
    rw [visitOrderL]
    rw [List.nodup_append]
    refine ⟨visitOrder_nodup o c (pos ++ [i]), visitOrderL_nodup o r pos (i + 1), ?_⟩
    intro q hql hqr
    have h1 := mem_visitOrder_take o c (pos ++ [i]) q hql
    obtain ⟨j, hij, h2⟩ := mem_visitOrderL_take o r pos (i + 1) q hqr
    rw [show (pos ++ [i]).length = pos.length + 1 by simp] at h1
    rw [h1] at h2
    have : i = j := by simpa using h2
    omega

end

/-- C8: the core traversal is terminating and total, and visits every
reachable non-ignored element exactly once: the fuel-indexed copy of traverse
succeeds with fuel equal to the tree size and returns exactly the traversal's
rows (termination on every finite tree; no error outcome exists in any
branch, ignored tags and empty leaves and all other conditions being ordinary
branches of total functions); the visit order of the traversal equals the
specification-side list of reachable non-ignored element positions in
document order; and that visit list never repeats a position. -/
theorem C8_termination :
    (∀ (o : Options) (n : XNode) (p : String),
      traverseF o (sizeN n) n p = some (Xp.traverse o n p)) ∧
    (∀ (o : Options) (n : XNode) (pos : List Nat),
      visitOrder o n pos = reachSpec o n pos) ∧
    (∀ (o : Options) (n : XNode) (pos : List Nat), (visitOrder o n pos).Nodup) := by
  exact ⟨fun o n p => traverseF_eq o (sizeN n) n p (le_refl _),
    visitOrder_eq_reachSpec, visitOrder_nodup⟩

/-! ## Top-down variant: trimGeneratedXPaths -/

/-- split of a character list at every occurrence of a separator character
(JavaScript String.prototype.split with a one-character separator). -/
def splitChar (sep : Char) : List Char → List (List Char)
  | [] => [[]]
  | c :: rest =>
    match splitChar sep rest with
    | [] => [[c]]
    | g :: gs => if c = sep then [] :: g :: gs else (c :: g) :: gs

/-- split at every line break, matching the \r?\n separator pattern of
trimGeneratedXPaths. -/
def splitLinesL : List Char → List (List Char)
  | [] => [[]]
  | '\r' :: '\n' :: rest => [] :: splitLinesL rest
  | '\n' :: rest => [] :: splitLinesL rest
  | c :: rest =>
    match splitLinesL rest with
    | [] => [[c]]
    | g :: gs => (c :: g) :: gs

/-- index of the first occurrence of the three-character separator
space-colon-space (line.indexOf of the sources). -/
def idxOfSepL : List Char → Option Nat
  | ' ' :: ':' :: ' ' :: _ => some 0
  | [] => none
  | _ :: rest => (idxOfSepL rest).map (· + 1)

/-- local name of a path segment as trimGeneratedXPaths computes it: drop
everything up to the first colon when one exists, then cut at the first
opening bracket. -/
def extractLocalL (seg : List Char) : List Char :=
  let t := if seg.contains ':' then (seg.dropWhile (fun c => c ≠ ':')).drop 1 else seg
  t.takeWhile (fun c => c ≠ '[')

/-- first index among segments whose lower-cased extracted local name equals
the (already lower-cased) wanted tag. -/
def findSegIdx (want : List Char) : List (List Char) → Option Nat
  | [] => none
  | s :: rest =>
    if (extractLocalL s).map Char.toLower = want then some 0
    else (findSegIdx want rest).map (· + 1)

/-- one line of trimGeneratedXPaths (lines 318-366): keep blank lines and
lines without the separator; otherwise split the path part at slashes, find
the first segment matching the wanted tag, drop everything before it, give a
namespace prefix to kept segments lacking a colon, and reassemble behind a
fresh double slash. -/
def trimLineAfterSep (want nsd line : List Char) (sep : Nat) : List Char :=
  let value := line.take sep
  let pathPart := trimChars (line.drop (sep + 3))
  let segs := (splitChar '/' pathPart).filter (fun s => s ≠ [])
  match findSegIdx want segs with
  | none => line
  | some found =>
    let newSegs := (segs.drop found).map
      (fun s => if s.contains ':' then s else nsd ++ ':' :: s)
    value ++ ' ' :: ':' :: ' ' :: '/' :: '/' :: interL ['/'] newSegs

def trimLineL (want : List Char) (nsd : List Char) (line : List Char) : List Char :=
  if trimChars line = [] then line
  else
    match idxOfSepL line with
    | none => line
    | some sep => trimLineAfterSep want nsd line sep

/-- trimGeneratedXPaths of xml-xpaths.js lines 311-369: nothing happens for a
falsy start tag; otherwise the output is split into lines, each line is
trimmed at the wanted tag, and the lines are rejoined. -/
def trimGeneratedXPaths (outputStr : String) (tag : String) (nsd : String) : String :=
  if tag = "" then outputStr
  else
    String.mk (interL ['\n']
      ((splitLinesL outputStr.data).map (trimLineL (lowerChars tag.data) nsd.data)))

/-- main pipeline of xml-xpaths.js lines 374-388 (file reading and writing
aside): generate, then trim exactly when startAtTag is truthy, defaulting the
namespace argument. -/
def mainPipeline (root : XNode) (o : Options) : String :=
  let out := generateXpathList root o
  match o.startAtTag with
  | some t =>
    if t = "" then out
    else trimGeneratedXPaths out t (if o.nspace = "" then "d" else o.nspace)
  | none => out

/-! ## Claims C7 and C10: counterexamples -/

/-- tree with two sibling B subtrees; the root-to-leaf chain of each of the
two leaves x(t) and y(u) holds exactly one element with local name B. -/
def treeC7 : XNode :=
  .elem "root" []
    (.cons (.elem "B" [] (.cons (.elem "x" [] (.cons (.text "t") .nil)) .nil))
     (.cons (.elem "B" [] (.cons (.elem "y" [] (.cons (.text "u") .nil)) .nil)) .nil))

/-- options of the C7 scenario without and with the start tag. -/
def oC7A : Options := normalizeOptions {}

def oC7B : Options := normalizeOptions { startAtTag := some "B" }

/-- C7 (counterexample): on the two-B tree, in which exactly one B lies on
the root-to-leaf chain of every leaf, building every path from the true root
and truncating at B keeps both rows (with B indices 1 and 2), while Mode B
traversal starts at the first B only and emits a single row, so the two
strategies differ. -/
theorem C7_cex :
    trimGeneratedXPaths (generateXpathList treeC7 oC7A) "B" "d" =
      "t : //d:B[1]/d:x[1][d:x=\"t\"]\nu : //d:B[2]/d:y[1][d:y=\"u\"]" ∧
    generateXpathList treeC7 oC7B = "t : //d:B[1]/d:x[1][d:x=\"t\"]" ∧
    trimGeneratedXPaths (generateXpathList treeC7 oC7A) "B" "d" ≠
      generateXpathList treeC7 oC7B := by
  exact ⟨by decide, by decide, by decide⟩

/-- tree and options of the C10 counterexample: a leaf text holding a slash
makes the truncation pass split the path inside a predicate value, and a
start tag chosen to match the resulting fragment replaces the whole path by
that fragment. -/
def treeC10 : XNode :=
  .elem "root" [] (.cons (.elem "t" [] (.cons (.text "w/x:b") .nil)) .nil)

def oC10 : Options := normalizeOptions { startAtTag := some "b\"]" }

/-- C10 (counterexample): the full pipeline on the slash-text tree emits the
line w/x:b : //x:b"], whose path part (after the separator at index 5) does
not begin with the two slashes, namespace d and colon the claim requires. -/
theorem C10_cex :
    mainPipeline treeC10 oC10 = "w/x:b : //x:b\"]" ∧
    idxOfSepL (mainPipeline treeC10 oC10).data = some 5 ∧
    (((mainPipeline treeC10 oC10).data.drop 8).take 4 ≠ ("//d:").data) := by
  exact ⟨by decide, by decide, by decide⟩

/-! ## Cleanliness predicates

The truncation pass of xml-xpaths.js recovers path structure from the path
string itself, so its correctness statements need the embedded names and
values to avoid the characters the pass splits on. -/

/-- characters allowed in tag names and namespace prefixes here: no slash,
colon, opening bracket, line break or whitespace. -/
def nameChar (c : Char) : Bool :=
  !(c = '/' || c = ':' || c = '[' || c = '\n' || c = '\r' || c.isWhitespace)

/-- characters allowed in attribute values: no slash or line break. -/
def valueChar (c : Char) : Bool := !(c = '/' || c = '\n' || c = '\r')

/-- characters allowed in leaf texts: additionally no colon, so that the
space-colon-space separator of a row stays unambiguous. -/
def textChar (c : Char) : Bool := !(c = '/' || c = ':' || c = '\n' || c = '\r')

def cleanName (s : String) : Bool := s.data.all nameChar

def cleanValue (s : String) : Bool := s.data.all valueChar

def cleanText (s : String) : Bool := s.data.all textChar

mutual

/-- clean tree: every tag and attribute name is a clean name, every attribute
value a clean value, and every element's trimmed text content a clean text. -/
def cleanTreeN : XNode → Bool
  | .text _ => true
  | .elem tag attrs ch =>
    cleanName tag && attrs.all (fun a => cleanName a.1 && cleanValue a.2) &&
    cleanText (jsTrim (textContentL ch)) && cleanTreeL ch

def cleanTreeL : XList → Bool
  | .nil => true
  | .cons c r => cleanTreeN c && cleanTreeL r

end

/-! ## Relative rows of the traversal -/

mutual

/-- rows of traverse with the accumulated path left out: each row is its text
together with the suffix the traversal appends behind the incoming path. -/
def rowsRel (o : Options) : XNode → List (String × String)
  | .text _ => []
  | .elem tag attrs ch =>
    let nodeLocal := localNameOf tag
    if o.ignoreLeafNodes.contains nodeLocal then []
    else if hasElemChild ch = false ∧ jsTrim (textContentL ch) ≠ "" then
      let t := jsTrim (textContentL ch)
      if o.includeLeafValuePredicate then
        [(t, "[" ++ o.nspace ++ ":" ++ nodeLocal ++ "=\"" ++ t ++ "\"]")]
      else
        [(t, "")]
    else
      rowsRelL o ch []

def rowsRelL (o : Options) : XList → List (String × Nat) → List (String × String)
  | .nil, _ => []
  | .cons c rest, counters =>
    match c with
    | .text _ => rowsRelL o rest counters
    | .elem ctag cattrs cch =>
      let childLocal := localNameOf ctag
      let tg := o.nspace ++ ":" ++ childLocal
      let predicateStr := attrPredStr o.attributesToIncludeInPath cattrs
      let key := tg ++ predicateStr
      let idx := lookupCnt key counters + 1
      let counters2 := setCnt key idx counters
      let seg := "/" ++ tg ++ predicateStr ++ indexStrFor o childLocal idx
      (rowsRel o (.elem ctag cattrs cch)).map (fun tr => (tr.1, seg ++ tr.2)) ++
        rowsRelL o rest counters2

end

mutual

theorem traverse_eq_rowsRel (o : Options) (n : XNode) (p : String) :
    Xp.traverse o n p = (rowsRel o n).map (fun tr => tr.1 ++ " : " ++ p ++ tr.2) := by
  match n with
  | .text s => rw [Xp.traverse, rowsRel]; rfl
  | .elem tag attrs ch =>
    rw [Xp.traverse, rowsRel]
    split_ifs with h1 h2 h3
    · rfl
    · simp [String.append_assoc]
    · simp
    · exact traverseChildren_eq_rowsRelL o ch p []

theorem traverseChildren_eq_rowsRelL (o : Options) (l : XList) (p : String)
    (cnt : List (String × Nat)) :
    Xp.traverseChildren o l p cnt =
      (rowsRelL o l cnt).map (fun tr => tr.1 ++ " : " ++ p ++ tr.2) := by
  match l with
  | .nil => rw [Xp.traverseChildren, rowsRelL]; rfl
  | .cons c rest =>
    match c with
    | .text s =>
      rw [Xp.traverseChildren, rowsRelL]
      exact traverseChildren_eq_rowsRelL o rest p cnt
    | .elem ctag cattrs cch =>
      rw [Xp.traverseChildren, rowsRelL]
      rw [traverse_eq_rowsRel, traverseChildren_eq_rowsRelL]
      simp [String.append_assoc]

end

/-! ## Shape lemmas for segment fragments -/

theorem natReprAux_digit (fuel n : Nat) :
    ∀ c ∈ natReprAux fuel n, ∃ m, m < 10 ∧ c = digitChar m := by
  induction fuel generalizing n with
  | zero => simp [natReprAux]
  | succ f ih =>
    rw [natReprAux]
    split_ifs with h
    · intro c hc
      simp at hc
      exact ⟨n, h, hc⟩
    · intro c hc
      rw [List.mem_append] at hc
      cases hc with
      | inl hc => exact ih (n / 10) c hc
      | inr hc =>
        simp at hc
        exact ⟨n % 10, Nat.mod_lt n (by omega), hc⟩

/-- every character of a rendered index is a digit, hence harmless. -/
theorem natRepr_char (n : Nat) :
    ∀ c ∈ (natRepr n).data, valueChar c = true ∧ c ≠ ':' ∧ c ≠ '[' ∧ c ≠ ']' ∧
      c.isWhitespace = false := by
  intro c hc
  obtain ⟨m, hm, rfl⟩ := natReprAux_digit (n + 1) n c hc
  interval_cases m <;> decide

/-- the attribute entry list underlying attrPredStr. -/
def entriesOf (attrs : List (String × String)) : List String → String
  | [] => ""
  | a :: rest =>
    (match getAttr a attrs with
     | some v => "[@" ++ a ++ "=\"" ++ v ++ "\"]"
     | none => "") ++ entriesOf attrs rest

theorem foldl_entries (attrs : List (String × String)) (names : List String) (acc : String) :
    names.foldl (attrStep attrs) acc = acc ++ entriesOf attrs names := by
  induction names generalizing acc with
  | nil => simp [entriesOf]
  | cons a rest ih =>
    rw [List.foldl_cons, entriesOf, ih, attrStep]
    match h : getAttr a attrs with
    | some v => simp [String.append_assoc]
    | none => simp

theorem attrPredStr_eq (names : List String) (attrs : List (String × String)) :
    attrPredStr names attrs = entriesOf attrs names := by
  rw [attrPredStr, foldl_entries]
  simp

theorem getAttr_mem (a : String) (attrs : List (String × String)) (v : String)
    (h : getAttr a attrs = some v) : (a, v) ∈ attrs := by
  induction attrs with
  | nil => simp [getAttr] at h
  | cons kv rest ih =>
    match kv with
    | (k, w) =>
      rw [getAttr] at h
      split_ifs at h with hk
      · cases h; rw [hk]; exact List.mem_cons_self _ _
      · exact List.mem_cons_of_mem _ (ih h)

/-- bracketed-clause shape: empty, or an opening bracket, a body, a closing
bracket. -/
def BracketShape (d : List Char) : Prop := d = [] ∨ ∃ m, d = '[' :: m ++ [']']

theorem BracketShape.append {d1 d2 : List Char} (h1 : BracketShape d1)
    (h2 : BracketShape d2) : BracketShape (d1 ++ d2) := by
  rcases h1 with rfl | ⟨m1, rfl⟩
  · simpa using h2
  rcases h2 with rfl | ⟨m2, rfl⟩
  · simpa using Or.inr ⟨m1, rfl⟩
  · refine Or.inr ⟨m1 ++ ']' :: '[' :: m2, ?_⟩
    simp

theorem nameChar_valueChar {c : Char} (h : nameChar c = true) : valueChar c = true := by
  simp [nameChar] at h
  simp [valueChar]
  tauto

theorem textChar_valueChar {c : Char} (h : textChar c = true) : valueChar c = true := by
  simp [textChar] at h
  simp [valueChar]
  tauto

theorem entriesOf_shape (attrs : List (String × String)) (names : List String)
    (hattrs : attrs.all (fun a => cleanName a.1 && cleanValue a.2) = true) :
    BracketShape (entriesOf attrs names).data ∧
      ∀ c ∈ (entriesOf attrs names).data, valueChar c = true := by
  induction names with
  | nil => exact ⟨Or.inl rfl, by simp [entriesOf]⟩
  | cons a rest ih =>
    rw [entriesOf]
    match h : getAttr a attrs with
    | none => simpa using ih
    | some v =>
      have hav := List.all_eq_true.mp hattrs _ (getAttr_mem a attrs v h)
      simp only [Bool.and_eq_true] at hav
      have hkey : ∀ c ∈ a.data, nameChar c = true := List.all_eq_true.mp hav.1
      have hval : ∀ c ∈ v.data, valueChar c = true := List.all_eq_true.mp hav.2
      rw [String.data_append]
      constructor
      · refine BracketShape.append (Or.inr ⟨'@' :: a.data ++ '=' :: '"' :: v.data ++ ['"'], ?_⟩) ih.1
        simp [String.data_append]
      · intro c hc
        rw [List.mem_append] at hc
        cases hc with
        | inr hc => exact ih.2 c hc
        | inl hc =>
          simp [String.data_append] at hc
          rcases hc with rfl | rfl | hc | rfl | rfl | hc | rfl | rfl
          · decide
          · decide
          · exact nameChar_valueChar (hkey c hc)
          · decide
          · decide
          · exact hval c hc
          · decide
          · decide

theorem attrPredStr_shape (names : List String) (attrs : List (String × String))
    (hattrs : attrs.all (fun a => cleanName a.1 && cleanValue a.2) = true) :
    BracketShape (attrPredStr names attrs).data ∧
      ∀ c ∈ (attrPredStr names attrs).data, valueChar c = true := by
  rw [attrPredStr_eq]
  exact entriesOf_shape attrs names hattrs

theorem indexStrFor_shape (o : Options) (local_ : String) (idx : Nat) :
    BracketShape (indexStrFor o local_ idx).data ∧
      ∀ c ∈ (indexStrFor o local_ idx).data,
        valueChar c = true ∧ c ≠ ':' ∧ c.isWhitespace = false := by
  rw [indexStrFor]
  split_ifs with h1 h2
  · exact ⟨Or.inr ⟨['1'], by decide⟩, by decide⟩
  · exact ⟨Or.inl rfl, by decide⟩
  · constructor
    · refine Or.inr ⟨(natRepr idx).data, ?_⟩
      simp [String.data_append]
    · intro c hc
      simp [String.data_append] at hc
      rcases hc with rfl | hc | rfl
      · decide
      · have := natRepr_char idx c hc
        exact ⟨this.1, this.2.1, this.2.2.2.2⟩
      · decide

/-! ## Character-list lemmas for the truncation pass -/

theorem mem_dropWhile_of_not {p : Char → Bool} {c : Char} {l : List Char}
    (hc : c ∈ l) (hp : p c = false) : c ∈ l.dropWhile p := by
  induction l with
  | nil => simp at hc
  | cons a t ih =>
    rw [List.dropWhile_cons]
    split_ifs with ha
    · rcases List.mem_cons.mp hc with rfl | hc2
      · rw [ha] at hp; cases hp
      · exact ih hc2
    · exact hc

theorem trimChars_ne_nil_of_mem {c : Char} {l : List Char} (hc : c ∈ l)
    (hp : c.isWhitespace = false) : trimChars l ≠ [] := by
  rw [trimChars]
  intro h
  have h1 : c ∈ l.dropWhile Char.isWhitespace := mem_dropWhile_of_not hc hp
  have h2 : c ∈ (l.dropWhile Char.isWhitespace).reverse.dropWhile Char.isWhitespace :=
    mem_dropWhile_of_not (by simpa using h1) hp
  rw [List.reverse_eq_nil_iff] at h
  rw [h] at h2
  simp at h2

theorem dropWhile_eq_self_of_head {p : Char → Bool} {l : List Char}
    (h : ∀ c, l.head? = some c → p c = false) : l.dropWhile p = l := by
  match l with
  | [] => rfl
  | a :: t =>
    rw [List.dropWhile_cons, if_neg]
    simp [h a rfl]

theorem trimChars_eq_self_of {l : List Char}
    (hh : ∀ c, l.head? = some c → c.isWhitespace = false)
    (hl : ∀ c, l.getLast? = some c → c.isWhitespace = false) : trimChars l = l := by
  rw [trimChars, dropWhile_eq_self_of_head hh]
  rw [dropWhile_eq_self_of_head (by simpa [List.head?_reverse] using hl)]
  exact List.reverse_reverse l

/-- pieces glued each behind one slash. -/
def seGlue : List (List Char) → List Char
  | [] => []
  | q :: rest => '/' :: (q ++ seGlue rest)

/-- the tail merged into the final piece. -/
def withTail : List (List Char) → List Char → List (List Char)
  | [], tail => [tail]
  | [q], tail => [q ++ tail]
  | q :: rest, tail => q :: withTail rest tail

theorem withTail_nil (ps : List (List Char)) (h : ps ≠ []) : withTail ps [] = ps := by
  match ps with
  | [] => exact absurd rfl h
  | [q] => simp [withTail]
  | q :: r :: rest =>
    rw [withTail, withTail_nil (r :: rest) (by simp)]
    all_goals simp

theorem seGlue_eq_interL (ps : List (List Char)) (h : ps ≠ []) :
    seGlue ps = '/' :: interL ['/'] ps := by
  match ps with
  | [] => exact absurd rfl h
  | [q] => simp [seGlue, interL]
  | q :: r :: rest =>
    rw [seGlue, seGlue_eq_interL (r :: rest) (by simp)]
    rw [show interL ['/'] (q :: r :: rest) = q ++ ['/'] ++ interL ['/'] (r :: rest) from rfl]
    simp

theorem interL_withTail (ps : List (List Char)) (tail : List Char) (h : ps ≠ []) :
    interL ['/'] (withTail ps tail) = interL ['/'] ps ++ tail := by
  match ps with
  | [] => exact absurd rfl h
  | [q] => simp [withTail, interL]
  | q :: r :: rest =>
    rw [withTail]
    rw [show interL ['/'] (q :: withTail (r :: rest) tail) =
      q ++ ['/'] ++ interL ['/'] (withTail (r :: rest) tail) from ?_]
    · rw [interL_withTail (r :: rest) tail (by simp)]
      rw [show interL ['/'] (q :: r :: rest) = q ++ ['/'] ++ interL ['/'] (r :: rest) from rfl]
      simp
    · match hw : withTail (r :: rest) tail with
      | [] => cases rest <;> simp [withTail] at hw
      | w :: ws2 => rfl
    all_goals simp

theorem withTail_drop (ps : List (List Char)) (tail : List Char) (j : Nat)
    (h : j < ps.length) : (withTail ps tail).drop j = withTail (ps.drop j) tail := by
  match ps, j with
  | [], _ => simp at h
  | [q], 0 => simp
  | [q], j + 1 => simp at h
  | q :: r :: rest, 0 => simp [withTail]
  | q :: r :: rest, j + 1 =>
    rw [withTail, List.drop_succ_cons, List.drop_succ_cons]
    exact withTail_drop (r :: rest) tail j (by simpa using h)
    all_goals simp

theorem withTail_length (ps : List (List Char)) (tail : List Char) (h : ps ≠ []) :
    (withTail ps tail).length = ps.length := by
  match ps with
  | [] => exact absurd rfl h
  | [q] => simp [withTail]
  | q :: r :: rest =>
    rw [withTail]
    simp only [List.length_cons]
    rw [withTail_length (r :: rest) tail (by simp)]
    all_goals simp

theorem splitChar_ne_nil (sep : Char) (l : List Char) : splitChar sep l ≠ [] := by
  induction l with
  | nil => simp [splitChar]
  | cons c rest ih =>
    rw [splitChar]
    match h : splitChar sep rest with
    | [] => exact absurd h ih
    | g :: gs => split_ifs <;> simp

theorem splitChar_no_sep (sep : Char) (l : List Char) (h : sep ∉ l) :
    splitChar sep l = [l] := by
  induction l with
  | nil => rfl
  | cons c rest ih =>
    have h1 : ¬c = sep := by simp at h; exact fun e => h.1 e.symm
    have h2 : sep ∉ rest := by simp at h; exact h.2
    rw [splitChar, ih h2]
    simp [h1]

theorem splitChar_sep_cons (sep : Char) (l : List Char) :
    splitChar sep (sep :: l) = [] :: splitChar sep l := by
  rw [splitChar]
  match h : splitChar sep l with
  | [] => exact absurd h (splitChar_ne_nil sep l)
  | g :: gs => simp

theorem splitChar_append_sep (sep : Char) (p l : List Char) (h : sep ∉ p) :
    splitChar sep (p ++ sep :: l) = p :: splitChar sep l := by
  induction p with
  | nil => simpa using splitChar_sep_cons sep l
  | cons c rest ih =>
    have h1 : ¬c = sep := by simp at h; exact fun e => h.1 e.symm
    have h2 : sep ∉ rest := by simp at h; exact h.2
    rw [List.cons_append, splitChar, ih h2]
    simp [h1]

theorem splitChar_interL (sep : Char) (ps : List (List Char)) (h : ps ≠ [])
    (hs : ∀ q ∈ ps, sep ∉ q) : splitChar sep (interL [sep] ps) = ps := by
  match ps with
  | [] => exact absurd rfl h
  | [q] =>
    rw [show interL [sep] [q] = q from rfl]
    exact splitChar_no_sep sep q (hs q (by simp))
  | q :: r :: rest =>
    rw [show interL [sep] (q :: r :: rest) = q ++ [sep] ++ interL [sep] (r :: rest) from rfl]
    rw [List.append_assoc, List.singleton_append]
    rw [splitChar_append_sep sep q _ (hs q (by simp))]
    rw [splitChar_interL sep (r :: rest) (by simp) (fun x hx => hs x (List.mem_cons_of_mem q hx))]

theorem idxOfSepL_at (t r : List Char) (h : ':' ∉ t) :
    idxOfSepL (t ++ ' ' :: ':' :: ' ' :: r) = some t.length := by
  induction t with
  | nil => rfl
  | cons c t2 ih =>
    have h1 : ¬c = ':' := by simp at h; exact fun e => h.1 e.symm
    have h2 : ':' ∉ t2 := by simp at h; exact h.2
    rw [List.cons_append, idxOfSepL.eq_def]
    split
    · next x heq =>
      rw [List.cons.injEq] at heq
      obtain ⟨rfl, heq⟩ := heq
      match t2, heq with
      | [], heq => simp at heq
      | d :: t3, heq =>
        rw [List.cons_append, List.cons.injEq] at heq
        exact absurd heq.1 (by simp at h2; exact fun e => h2.1 e.symm)
    · next heq => simp at heq
    · rename_i hne heq
      rw [List.cons.injEq] at heq
      obtain ⟨rfl, heq⟩ := heq
      rw [← heq, ih h2]
      simp

theorem dropWhile_until_colon (nsd tail : List Char) (h : ':' ∉ nsd) :
    (nsd ++ ':' :: tail).dropWhile (fun c => c ≠ ':') = ':' :: tail := by
  induction nsd with
  | nil => simp [List.dropWhile_cons]
  | cons c n2 ih =>
    have h1 : ¬c = ':' := by simp at h; exact fun e => h.1 e.symm
    have h2 : ':' ∉ n2 := by simp at h; exact h.2
    rw [List.cons_append, List.dropWhile_cons]
    rw [if_pos (by simp [h1])]
    exact ih h2

theorem takeWhile_until_bracket (name rest : List Char) (hname : '[' ∉ name)
    (hrest : rest = [] ∨ ∃ r2, rest = '[' :: r2) :
    (name ++ rest).takeWhile (fun c => c ≠ '[') = name := by
  induction name with
  | nil =>
    rcases hrest with rfl | ⟨r2, rfl⟩
    · rfl
    · simp [List.takeWhile_cons]
  | cons c n2 ih =>
    have h1 : ¬c = '[' := by simp at hname; exact fun e => hname.1 e.symm
    have h2 : '[' ∉ n2 := by simp at hname; exact hname.2
    rw [List.cons_append, List.takeWhile_cons]
    rw [if_pos (by simp [h1])]
    rw [ih h2]

theorem extractLocalL_of_shape (nsd name rest : List Char)
    (hns : ':' ∉ nsd) (hname : '[' ∉ name)
    (hrest : rest = [] ∨ ∃ r2, rest = '[' :: r2) :
    extractLocalL (nsd ++ ':' :: name ++ rest) = name := by
  rw [extractLocalL]
  have hc : (nsd ++ ':' :: name ++ rest).contains ':' = true := by
    simp [List.contains_eq_any_beq]
  rw [if_pos hc]
  rw [show nsd ++ ':' :: name ++ rest = nsd ++ ':' :: (name ++ rest) by simp]
  rw [dropWhile_until_colon nsd (name ++ rest) hns]
  rw [List.drop_succ_cons, List.drop_zero]
  exact takeWhile_until_bracket name rest hname hrest

theorem takeWhile_eq_self_of {p : Char → Bool} {l : List Char}
    (h : ∀ c ∈ l, p c = true) : l.takeWhile p = l := by
  induction l with
  | nil => rfl
  | cons c rest ih =>
    rw [List.takeWhile_cons, if_pos (h c (by simp)), ih (fun x hx => h x (by simp [hx]))]

/-- a clean tag is its own local name. -/
theorem localNameOf_clean (t : String) (h : cleanName t = true) : localNameOf t = t := by
  rw [localNameOf]
  rw [takeWhile_eq_self_of]
  · simp
  · intro c hc
    rw [List.mem_reverse] at hc
    have := List.all_eq_true.mp h c hc
    simp [nameChar] at this
    simp [this.1.1.1.1.2]

/-- clean namespace prefix: same character set as clean names. -/
def cleanNs (s : String) : Bool := s.data.all nameChar

/-! ## Row shape invariant -/

/-- shape of one path piece generated for an element with the given clean
local name: namespace prefix, colon, name, then bracketed clauses only. -/
def SegOf (o : Options) (name : String) (q : List Char) : Prop :=
  ∃ rest, q = o.nspace.data ++ ':' :: name.data ++ rest ∧ cleanName name = true ∧
    BracketShape rest ∧ ∀ c ∈ rest, valueChar c = true

/-- shape of a leaf-value tail appended without a slash. -/
def TailOk (tail : List Char) : Prop :=
  BracketShape tail ∧ ∀ c ∈ tail, valueChar c = true

/-- shape of a row text. -/
def TextOk (t : String) : Prop := t ≠ "" ∧ ∀ c ∈ t.data, textChar c = true

/-- shape of one relative row: its text is clean and its path suffix is a
sequence of slash-prefixed pieces with a bracket tail merged at the end. -/
def RowOk (o : Options) (tr : String × String) : Prop :=
  TextOk tr.1 ∧
  ∃ (ps : List (String × List Char)) (tail : List Char),
    tr.2.data = seGlue (ps.map Prod.snd) ++ tail ∧
    (∀ s ∈ ps, SegOf o s.1 s.2) ∧ TailOk tail

theorem tailOk_leafPred (o : Options) (local_ t : String)
    (hns : cleanNs o.nspace = true) (hlocal : cleanName local_ = true)
    (ht : ∀ c ∈ t.data, textChar c = true) :
    TailOk ("[" ++ o.nspace ++ ":" ++ local_ ++ "=\"" ++ t ++ "\"]").data := by
  constructor
  · refine Or.inr ⟨o.nspace.data ++ ':' :: local_.data ++ '=' :: '"' :: t.data ++ ['"'], ?_⟩
    simp [String.data_append]
  · intro c hc
    simp [String.data_append] at hc
    rcases hc with rfl | hc | rfl | hc | rfl | rfl | hc | rfl | rfl
    · decide
    · exact nameChar_valueChar (List.all_eq_true.mp hns c hc)
    · decide
    · exact nameChar_valueChar (List.all_eq_true.mp hlocal c hc)
    · decide
    · decide
    · exact textChar_valueChar (ht c hc)
    · decide
    · decide

theorem segOf_piece (o : Options) (ctag : String) (cattrs : List (String × String))
    (idx : Nat) (hname : cleanName ctag = true)
    (hattrs : cattrs.all (fun a => cleanName a.1 && cleanValue a.2) = true) :
    SegOf o (localNameOf ctag)
      ((o.nspace ++ ":" ++ localNameOf ctag ++ attrPredStr o.attributesToIncludeInPath cattrs ++
        indexStrFor o (localNameOf ctag) idx).data) := by
  refine ⟨(attrPredStr o.attributesToIncludeInPath cattrs).data ++
    (indexStrFor o (localNameOf ctag) idx).data, ?_, ?_, ?_, ?_⟩
  · simp [String.data_append]
  · rw [localNameOf_clean ctag hname]; exact hname
  · exact BracketShape.append (attrPredStr_shape _ _ hattrs).1 (indexStrFor_shape o _ idx).1
  · intro c hc
    rw [List.mem_append] at hc
    cases hc with
    | inl hc => exact (attrPredStr_shape _ _ hattrs).2 c hc
    | inr hc => exact ((indexStrFor_shape o _ idx).2 c hc).1

mutual

theorem rowsRel_ok (o : Options) (n : XNode) (hns : cleanNs o.nspace = true)
    (hct : cleanTreeN n = true) : ∀ tr ∈ rowsRel o n, RowOk o tr := by
  match n with
  | .text s => rw [rowsRel]; intro tr htr; exact absurd htr (List.not_mem_nil tr)
  | .elem tag attrs ch =>
    rw [cleanTreeN] at hct
    simp only [Bool.and_eq_true] at hct
    obtain ⟨⟨⟨htag, hattrs⟩, htext⟩, hch⟩ := hct
    rw [rowsRel]
    split_ifs with h1 h2 h3
    · intro tr htr; exact absurd htr (List.not_mem_nil tr)
    · intro tr htr
      rw [List.mem_singleton] at htr
      subst htr
      refine ⟨⟨h2.2, List.all_eq_true.mp htext⟩, [],
        ("[" ++ o.nspace ++ ":" ++ localNameOf tag ++ "=\"" ++
          jsTrim (textContentL ch) ++ "\"]").data, by simp [seGlue], by simp, ?_⟩
      exact tailOk_leafPred o (localNameOf tag) (jsTrim (textContentL ch)) hns
        (by rw [localNameOf_clean tag htag]; exact htag) (List.all_eq_true.mp htext)
    · intro tr htr
      rw [List.mem_singleton] at htr
      subst htr
      exact ⟨⟨h2.2, List.all_eq_true.mp htext⟩, [], [], by simp [seGlue], by simp,
        Or.inl rfl, by simp⟩
    · exact rowsRelL_ok o ch [] hns hch

theorem rowsRelL_ok (o : Options) (l : XList) (cnt : List (String × Nat))
    (hns : cleanNs o.nspace = true) (hct : cleanTreeL l = true) :
    ∀ tr ∈ rowsRelL o l cnt, RowOk o tr := by
  match l with
  | .nil => rw [rowsRelL]; intro tr htr; exact absurd htr (List.not_mem_nil tr)
  | .cons c rest =>
    rw [cleanTreeL] at hct
    simp only [Bool.and_eq_true] at hct
    match c with
    | .text s =>
      rw [rowsRelL]
      exact rowsRelL_ok o rest cnt hns hct.2
    | .elem ctag cattrs cch =>
      rw [rowsRelL]
      intro tr htr
      rw [List.mem_append] at htr
      cases htr with
      | inr htr => exact rowsRelL_ok o rest _ hns hct.2 tr htr
      | inl htr =>
        rw [List.mem_map] at htr
        obtain ⟨tr0, htr0, rfl⟩ := htr
        obtain ⟨htext, ps, tail, hdec, hsegs, htail⟩ :=
          rowsRel_ok o (.elem ctag cattrs cch) hns hct.1 tr0 htr0
        have hct1 := hct.1
        rw [cleanTreeN] at hct1
        simp only [Bool.and_eq_true] at hct1
        refine ⟨htext, (localNameOf ctag,
          (o.nspace ++ ":" ++ localNameOf ctag ++
            attrPredStr o.attributesToIncludeInPath cattrs ++
            indexStrFor o (localNameOf ctag) (lookupCnt
              (o.nspace ++ ":" ++ localNameOf ctag ++
                attrPredStr o.attributesToIncludeInPath cattrs) cnt + 1)).data) :: ps,
          tail, ?_, ?_, htail⟩
        · simp only [List.map_cons, seGlue]
          simp [String.data_append, hdec, String.append_assoc]
        · intro s hs
          rw [List.mem_cons] at hs
          cases hs with
          | inl hs =>
            subst hs
            exact segOf_piece o ctag cattrs _ hct1.1.1.1 hct1.1.1.2
          | inr hs => exact hsegs s hs

end

theorem valueChar_props {c : Char} (h : valueChar c = true) :
    c ≠ '/' ∧ c ≠ '\n' ∧ c ≠ '\r' := by
  simp [valueChar] at h
  exact ⟨h.1.1, h.1.2, h.2⟩

theorem mem_of_getLast?_my {α : Type} {l : List α} {a : α} (h : l.getLast? = some a) :
    a ∈ l := by
  have hm : a ∈ l.getLast? := by rw [h]; rfl
  obtain ⟨hne, rfl⟩ := List.mem_getLast?_eq_getLast hm
  exact List.getLast_mem hne

theorem interL_ne_nil (ps : List (List Char)) (hps : ps ≠ [])
    (hq : ∀ q ∈ ps, q ≠ []) : interL ['/'] ps ≠ [] := by
  match ps with
  | [] => exact absurd rfl hps
  | [q] => exact hq q (by simp)
  | q :: r :: rest =>
    rw [show interL ['/'] (q :: r :: rest) = q ++ ['/'] ++ interL ['/'] (r :: rest) from rfl]
    simp

theorem getLast?_interL (ps : List (List Char)) (q0 : List Char)
    (hlast : ps.getLast? = some q0) (hq : ∀ q ∈ ps, q ≠ []) :
    (interL ['/'] ps).getLast? = q0.getLast? := by
  match ps with
  | [] => simp at hlast
  | [q] =>
    simp at hlast
    subst hlast
    rfl
  | q :: r :: rest =>
    rw [List.getLast?_cons_cons] at hlast
    have hrec := getLast?_interL (r :: rest) q0 hlast
      (fun x hx => hq x (List.mem_cons_of_mem q hx))
    have hq0 : q0 ≠ [] := hq q0 (List.mem_cons_of_mem q (mem_of_getLast?_my hlast))
    obtain ⟨c0, hc0⟩ : ∃ c0, q0.getLast? = some c0 := by
      match h0 : q0.getLast? with
      | some c => exact ⟨c, rfl⟩
      | none => exact absurd (List.getLast?_eq_none_iff.mp h0) hq0
    rw [show interL ['/'] (q :: r :: rest) = q ++ (['/'] ++ interL ['/'] (r :: rest)) from by
      rw [show interL ['/'] (q :: r :: rest) = q ++ ['/'] ++ interL ['/'] (r :: rest) from rfl]
      simp]
    rw [List.getLast?_append, List.getLast?_append, hrec, hc0]
    simp

/-- behavior of one trimGeneratedXPaths line on a well-formed row: the value
is recovered, the path part splits into exactly its pieces, and the outcome
is decided by the first piece matching the wanted tag. -/
theorem trimLine_core (want nsd : List Char) (t : String) (ps2 : List (List Char))
    (htne : t.data ≠ []) (htc : ∀ c ∈ t.data, textChar c = true)
    (hps : ps2 ≠ [])
    (hq : ∀ q ∈ ps2, q ≠ [] ∧ ∀ c ∈ q, valueChar c = true)
    (hlast : ∀ q c, ps2.getLast? = some q → q.getLast? = some c → c.isWhitespace = false) :
    trimLineL want nsd (t.data ++ ' ' :: ':' :: ' ' :: '/' :: '/' :: interL ['/'] ps2) =
      (match findSegIdx want ps2 with
       | none => t.data ++ ' ' :: ':' :: ' ' :: '/' :: '/' :: interL ['/'] ps2
       | some j => t.data ++ ' ' :: ':' :: ' ' :: '/' :: '/' :: interL ['/']
           ((ps2.drop j).map (fun s => if s.contains ':' then s else nsd ++ ':' :: s))) := by
  have hnocolon : ':' ∉ t.data := fun hc => by
    have := htc ':' hc
    simp [textChar] at this
  rw [trimLineL]
  rw [if_neg (by
    intro he
    exact absurd he (trimChars_ne_nil_of_mem (c := ':') (by simp) (by decide)))]
  rw [idxOfSepL_at t.data _ hnocolon]
  show trimLineAfterSep want nsd
    (t.data ++ ' ' :: ':' :: ' ' :: '/' :: '/' :: interL ['/'] ps2) t.data.length = _
  rw [trimLineAfterSep]
  have hval : (t.data ++ ' ' :: ':' :: ' ' :: '/' :: '/' :: interL ['/'] ps2).take t.data.length =
      t.data := List.take_left t.data _
  have hdrop : (t.data ++ ' ' :: ':' :: ' ' :: '/' :: '/' :: interL ['/'] ps2).drop
      (t.data.length + 3) = '/' :: '/' :: interL ['/'] ps2 := by
    rw [show t.data ++ ' ' :: ':' :: ' ' :: '/' :: '/' :: interL ['/'] ps2 =
      (t.data ++ [' ', ':', ' ']) ++ '/' :: '/' :: interL ['/'] ps2 by simp]
    rw [show t.data.length + 3 = (t.data ++ [' ', ':', ' ']).length by simp]
    exact List.drop_left _ _
  rw [hval, hdrop]
  have htrim : trimChars ('/' :: '/' :: interL ['/'] ps2) = '/' :: '/' :: interL ['/'] ps2 := by
    apply trimChars_eq_self_of
    · intro c hc
      rw [List.head?_cons] at hc
      cases hc
      decide
    · intro c hc
      obtain ⟨q0, hq0⟩ : ∃ q0, ps2.getLast? = some q0 := by
        match h0 : ps2.getLast? with
        | some q0 => exact ⟨q0, rfl⟩
        | none => exact absurd (List.getLast?_eq_none_iff.mp h0) hps
      rw [show ('/' :: '/' :: interL ['/'] ps2) = ['/', '/'] ++ interL ['/'] ps2 from rfl,
        List.getLast?_append] at hc
      rw [getLast?_interL ps2 q0 hq0 (fun x hx => (hq x hx).1)] at hc
      match h2 : q0.getLast? with
      | some c2 =>
        rw [h2] at hc
        simp at hc
        exact hc ▸ hlast q0 c2 hq0 h2
      | none =>
        exact absurd (List.getLast?_eq_none_iff.mp h2)
          (hq q0 (mem_of_getLast?_my hq0)).1
  rw [htrim]
  have hsplit : splitChar '/' ('/' :: '/' :: interL ['/'] ps2) = [] :: [] :: ps2 := by
    rw [splitChar_sep_cons, splitChar_sep_cons]
    rw [splitChar_interL '/' ps2 hps
      (fun q hqm hc0 => ((valueChar_props ((hq q hqm).2 '/' hc0)).1 rfl).elim)]
  rw [hsplit]
  have hfilter : (([] : List Char) :: ([] : List Char) :: ps2).filter (fun s => s ≠ []) = ps2 := by
    rw [List.filter_cons, List.filter_cons]
    simp only [decide_not]
    rw [if_neg (by simp), if_neg (by simp)]
    rw [List.filter_eq_self.mpr]
    intro a ha
    simp [(hq a ha).1]
  rw [hfilter]

/-! ## Assembling full paths from pieces -/

theorem interL_cons_seGlue (q : List Char) (r : List (List Char)) :
    interL ['/'] (q :: r) = q ++ seGlue r := by
  match r with
  | [] => simp [interL, seGlue]
  | s :: rest =>
    rw [show interL ['/'] (q :: s :: rest) = q ++ ['/'] ++ interL ['/'] (s :: rest) from rfl]
    rw [interL_cons_seGlue s rest, seGlue]
    simp

theorem interL_append_seGlue (P Q : List (List Char)) (h : P ≠ []) :
    interL ['/'] P ++ seGlue Q = interL ['/'] (P ++ Q) := by
  match P with
  | [] => exact absurd rfl h
  | [p] =>
    rw [show interL ['/'] [p] = p from rfl, List.singleton_append, interL_cons_seGlue]
  | p :: r :: rest =>
    have ih := interL_append_seGlue (r :: rest) Q (by simp)
    rw [show interL ['/'] (p :: r :: rest) = p ++ ['/'] ++ interL ['/'] (r :: rest) from rfl,
      show ((p :: r :: rest) ++ Q) = p :: ((r :: rest) ++ Q) from rfl,
      show interL ['/'] (p :: ((r :: rest) ++ Q)) =
        p ++ ['/'] ++ interL ['/'] ((r :: rest) ++ Q) from rfl]
    simp [ih]

theorem withTail_mem (R : List (List Char)) (tail q : List Char) (hR : R ≠ [])
    (hq : q ∈ withTail R tail) :
    q ∈ R ∨ ∃ l0, R.getLast? = some l0 ∧ q = l0 ++ tail := by
  match R with
  | [] => exact absurd rfl hR
  | [p] =>
    rw [withTail] at hq
    rw [List.mem_singleton] at hq
    exact Or.inr ⟨p, by simp, hq⟩
  | p :: r :: rest =>
    rw [withTail, List.mem_cons] at hq
    cases hq with
    | inl hq => exact Or.inl (by simp [hq])
    | inr hq =>
      rcases withTail_mem (r :: rest) tail q (by simp) hq with hin | ⟨l0, hl0, rfl⟩
      · exact Or.inl (List.mem_cons_of_mem p hin)
      · exact Or.inr ⟨l0, by rw [List.getLast?_cons_cons]; exact hl0, rfl⟩
    all_goals simp

theorem segOf_props (o : Options) (name : String) (q : List Char)
    (hns : cleanNs o.nspace = true) (hseg : SegOf o name q) :
    q ≠ [] ∧ (∀ c ∈ q, valueChar c = true) ∧ ':' ∈ q := by
  obtain ⟨rest, rfl, hname, hshape, hchars⟩ := hseg
  refine ⟨by simp, ?_, by simp⟩
  intro c hc
  simp at hc
  rcases hc with hc | hc | hc | hc
  · exact nameChar_valueChar (List.all_eq_true.mp hns c hc)
  · rw [hc]; decide
  · exact nameChar_valueChar (List.all_eq_true.mp hname c hc)
  · exact hchars c hc

theorem segOf_lastChar (o : Options) (name : String) (q tail : List Char)
    (hseg : SegOf o name q) (htail : TailOk tail) :
    ∀ c, (q ++ tail).getLast? = some c → c.isWhitespace = false := by
  obtain ⟨rest, rfl, hname, hshape, hchars⟩ := hseg
  intro c hc
  rcases htail.1 with rfl | ⟨m, rfl⟩
  · rw [List.append_nil] at hc
    rcases hshape with rfl | ⟨m2, rfl⟩
    · rw [List.append_nil] at hc
      rw [List.getLast?_append] at hc
      match hn : name.data with
      | [] =>
        rw [hn] at hc
        simp at hc
        rw [← hc]
        decide
      | d :: nd =>
        rw [hn] at hc
        rw [show (':' :: (d :: nd)).getLast? = (d :: nd).getLast? from
          List.getLast?_cons_cons] at hc
        match h2 : (d :: nd).getLast? with
        | some c2 =>
          rw [h2] at hc
          simp at hc
          have hmem : c2 ∈ name.data := by
            rw [hn]; exact mem_of_getLast?_my h2
          have := List.all_eq_true.mp hname c2 hmem
          simp [nameChar] at this
          rw [← hc]
          simp [this.2]
        | none =>
          exfalso
          have := List.getLast?_eq_none_iff.mp h2
          simp at this
    · rw [show o.nspace.data ++ ':' :: name.data ++ ('[' :: m2 ++ [']']) =
        (o.nspace.data ++ ':' :: name.data ++ '[' :: m2) ++ [']'] by simp] at hc
      rw [List.getLast?_concat] at hc
      cases hc
      decide
  · rw [show o.nspace.data ++ ':' :: name.data ++ rest ++ ('[' :: m ++ [']']) =
      (o.nspace.data ++ ':' :: name.data ++ rest ++ '[' :: m) ++ [']'] by simp] at hc
    rw [List.getLast?_concat] at hc
    cases hc
    decide

theorem segOf_extract (o : Options) (name : String) (q tail : List Char)
    (hns : cleanNs o.nspace = true) (hseg : SegOf o name q) (htail : TailOk tail) :
    extractLocalL (q ++ tail) = name.data := by
  obtain ⟨rest, rfl, hname, hshape, hchars⟩ := hseg
  rw [show o.nspace.data ++ ':' :: name.data ++ rest ++ tail =
    o.nspace.data ++ ':' :: name.data ++ (rest ++ tail) by simp]
  apply extractLocalL_of_shape
  · intro hc
    have := List.all_eq_true.mp hns ':' hc
    simp [nameChar] at this
  · intro hc
    have := List.all_eq_true.mp hname '[' hc
    simp [nameChar] at this
  · rcases BracketShape.append hshape htail.1 with he | ⟨m, hm⟩
    · exact Or.inl he
    · exact Or.inr ⟨m ++ [']'], hm⟩

/-! ## Line splitting lemmas -/

theorem splitLinesL_ne_nil (l : List Char) : splitLinesL l ≠ [] := by
  rw [splitLinesL.eq_def]
  split
  · simp
  · simp
  · simp
  · split <;> simp

theorem splitLinesL_break (l : List Char) :
    splitLinesL ('\n' :: l) = [] :: splitLinesL l := by
  rfl

theorem splitLinesL_no_break (l : List Char) (h : '\n' ∉ l) : splitLinesL l = [l] := by
  induction l with
  | nil => rfl
  | cons c rest ih =>
    have h1 : ¬c = '\n' := by simp at h; exact fun e => h.1 e.symm
    have h2 : '\n' ∉ rest := by simp at h; exact h.2
    rw [splitLinesL.eq_def]
    split
    · next heq => simp at heq
    · next x heq =>
      rw [List.cons.injEq] at heq
      exact absurd heq.2 (by intro he; rw [he] at h2; simp at h2)
    · next x heq =>
      rw [List.cons.injEq] at heq
      exact absurd heq.1 h1
    · next x rest2 hne heq =>
      rw [List.cons.injEq] at heq
      obtain ⟨rfl, heq⟩ := heq
      rw [← heq, ih h2]

theorem splitLinesL_append (p l : List Char) (hp : '\n' ∉ p) (hr : '\r' ∉ p) :
    splitLinesL (p ++ '\n' :: l) = p :: splitLinesL l := by
  induction p with
  | nil => exact splitLinesL_break l
  | cons c rest ih =>
    have h1 : ¬c = '\n' := by simp at hp; exact fun e => hp.1 e.symm
    have h1r : ¬c = '\r' := by simp at hr; exact fun e => hr.1 e.symm
    have h2 : '\n' ∉ rest := by simp at hp; exact hp.2
    have h2r : '\r' ∉ rest := by simp at hr; exact hr.2
    rw [List.cons_append, splitLinesL.eq_def]
    split
    · next heq => simp at heq
    · next x heq =>
      rw [List.cons.injEq] at heq
      exact absurd heq.1 h1r
    · next x heq =>
      rw [List.cons.injEq] at heq
      exact absurd heq.1 h1
    · next x rest2 hne heq =>
      rw [List.cons.injEq] at heq
      obtain ⟨rfl, heq⟩ := heq
      rw [← heq, ih h2 h2r]

theorem splitLinesL_interL (rows : List (List Char)) (h : rows ≠ [])
    (hrows : ∀ r ∈ rows, '\n' ∉ r ∧ '\r' ∉ r) :
    splitLinesL (interL ['\n'] rows) = rows := by
  match rows with
  | [] => exact absurd rfl h
  | [r] =>
    rw [show interL ['\n'] [r] = r from rfl]
    exact splitLinesL_no_break r (hrows r (by simp)).1
  | r :: s :: rest =>
    rw [show interL ['\n'] (r :: s :: rest) = r ++ ['\n'] ++ interL ['\n'] (s :: rest) from rfl]
    rw [List.append_assoc, List.singleton_append]
    rw [splitLinesL_append r _ (hrows r (by simp)).1 (hrows r (by simp)).2]
    rw [splitLinesL_interL (s :: rest) (by simp)
      (fun x hx => hrows x (List.mem_cons_of_mem r hx))]

/-! ## Start-node resolution lemmas -/

theorem ctxAt_getD (root : XNode) (q : List Nat) :
    (ctxAt root q).1.getD (ctxAt root q).2 (.text "") = nodeAt root q := by
  match q with
  | [] => rfl
  | [i] => rfl
  | i :: j :: rest =>
    rw [show ctxAt root (i :: j :: rest) =
      ctxAt ((childrenOf root).toList.getD i (.text "")) (j :: rest) from rfl]
    rw [show nodeAt root (i :: j :: rest) =
      nodeAt ((childrenOf root).toList.getD i (.text "")) (j :: rest) from rfl]
    exact ctxAt_getD ((childrenOf root).toList.getD i (.text "")) (j :: rest)

theorem cleanTreeL_getD (l : XList) (j : Nat) (hc : cleanTreeL l = true)
    (hj : j < l.toList.length) : cleanTreeN (l.toList.getD j (.text "")) = true := by
  match l, j with
  | .nil, j => simp [XList.toList] at hj
  | .cons c r, 0 =>
    rw [cleanTreeL] at hc
    simp only [Bool.and_eq_true] at hc
    exact hc.1
  | .cons c r, j + 1 =>
    rw [cleanTreeL] at hc
    simp only [Bool.and_eq_true] at hc
    rw [show (XList.cons c r).toList.getD (j + 1) (.text "") =
      r.toList.getD j (.text "") from rfl]
    exact cleanTreeL_getD r j hc.2 (by simpa [XList.toList] using hj)

mutual

theorem findPosN_spec (pred : XNode → Bool) (n : XNode) (q : List Nat)
    (h : findPosN pred n = some q) (hc : cleanTreeN n = true) :
    pred (nodeAt n q) = true ∧ cleanTreeN (nodeAt n q) = true := by
  match n with
  | .text s =>
    rw [findPosN] at h
    split_ifs at h with hp
    · cases h
      exact ⟨hp, hc⟩
  | .elem tag attrs ch =>
    rw [findPosN] at h
    split_ifs at h with hp
    · cases h
      exact ⟨hp, hc⟩
    · obtain ⟨j, tail, rfl, _, hspec⟩ := findPosL_spec pred ch 0 q h
        (by rw [cleanTreeN] at hc; simp only [Bool.and_eq_true] at hc; exact hc.2)
      rw [show nodeAt (.elem tag attrs ch) (j :: tail) =
        nodeAt (ch.toList.getD (j - 0) (.text "")) tail from by simp [nodeAt, childrenOf]]
      exact hspec

theorem findPosL_spec (pred : XNode → Bool) (l : XList) (i : Nat) (q : List Nat)
    (h : findPosL pred l i = some q) (hc : cleanTreeL l = true) :
    ∃ j tail, q = j :: tail ∧ i ≤ j ∧
      pred (nodeAt (l.toList.getD (j - i) (.text "")) tail) = true ∧
      cleanTreeN (nodeAt (l.toList.getD (j - i) (.text "")) tail) = true := by
  match l with
  | .nil => rw [findPosL] at h; cases h
  | .cons c r =>
    rw [cleanTreeL] at hc
    simp only [Bool.and_eq_true] at hc
    rw [findPosL] at h
    match hf : findPosN pred c with
    | some tail =>
      rw [hf] at h
      cases h
      refine ⟨i, tail, rfl, le_refl i, ?_⟩
      rw [show i - i = 0 by omega]
      rw [show (XList.cons c r).toList.getD 0 (.text "") = c from rfl]
      exact findPosN_spec pred c tail hf hc.1
    | none =>
      rw [hf] at h
      obtain ⟨j, tail, rfl, hij, hspec⟩ := findPosL_spec pred r (i + 1) q h hc.2
      refine ⟨j, tail, rfl, by omega, ?_⟩
      rw [show (XList.cons c r).toList.getD (j - i) (.text "") =
        r.toList.getD (j - (i + 1)) (.text "") from ?_]
      · exact hspec
      · rw [show (XList.cons c r).toList = c :: r.toList from rfl]
        rw [show j - i = (j - (i + 1)) + 1 by omega]
        rfl

end

/-! ## Full line structure -/

/-- properties of one piece of a generated path, as the truncation pass sees
it: non-empty, free of split characters, namespace-prefixed, and ending in a
non-whitespace character. -/
def PieceOk (o : Options) (q : List Char) : Prop :=
  q ≠ [] ∧ (∀ c ∈ q, valueChar c = true) ∧ (∃ r, q = o.nspace.data ++ ':' :: r) ∧
    (∀ c, q.getLast? = some c → c.isWhitespace = false)

theorem segOf_startsNs (o : Options) (name : String) (q : List Char)
    (hseg : SegOf o name q) : ∃ r, q = o.nspace.data ++ ':' :: r := by
  obtain ⟨rest, rfl, _, _, _⟩ := hseg
  exact ⟨name.data ++ rest, by simp⟩

theorem tailOk_nil : TailOk [] := ⟨Or.inl rfl, by simp⟩

theorem pieces_ok (o : Options) (R : List (String × List Char)) (tail : List Char)
    (hns : cleanNs o.nspace = true)
    (hsegs : ∀ s ∈ R, SegOf o s.1 s.2) (htail : TailOk tail) (hR : R.map Prod.snd ≠ []) :
    ∀ q ∈ withTail (R.map Prod.snd) tail, PieceOk o q := by
  intro q hq
  rcases withTail_mem (R.map Prod.snd) tail q hR hq with hin | ⟨l0, hl0, rfl⟩
  · rw [List.mem_map] at hin
    obtain ⟨s, hs, rfl⟩ := hin
    have hseg := hsegs s hs
    obtain ⟨hne, hchars, hcolon⟩ := segOf_props o s.1 s.2 hns hseg
    refine ⟨hne, hchars, segOf_startsNs o s.1 s.2 hseg, ?_⟩
    intro c hc
    exact segOf_lastChar o s.1 s.2 [] hseg tailOk_nil c (by simpa using hc)
  · have hl0m : l0 ∈ R.map Prod.snd := mem_of_getLast?_my hl0
    rw [List.mem_map] at hl0m
    obtain ⟨s, hs, rfl⟩ := hl0m
    have hseg := hsegs s hs
    obtain ⟨hne, hchars, _⟩ := segOf_props o s.1 s.2 hns hseg
    refine ⟨by simp [hne], ?_, ?_, segOf_lastChar o s.1 s.2 tail hseg htail⟩
    · intro c hc
      rw [List.mem_append] at hc
      cases hc with
      | inl hc => exact hchars c hc
      | inr hc => exact htail.2 c hc
    · obtain ⟨r, hr⟩ := segOf_startsNs o s.1 s.2 hseg
      exact ⟨r ++ tail, by rw [hr]; simp⟩

theorem row_line (o : Options) (n : XNode) (P : List (String × List Char)) (p : String)
    (row : String) (hns : cleanNs o.nspace = true) (hct : cleanTreeN n = true)
    (hP : P ≠ []) (hPsegs : ∀ s ∈ P, SegOf o s.1 s.2)
    (hp : p.data = '/' :: '/' :: interL ['/'] (P.map Prod.snd))
    (hrow : row ∈ Xp.traverse o n p) :
    ∃ (t : String) (R : List (String × List Char)) (tail : List Char),
      row.data = t.data ++ ' ' :: ':' :: ' ' :: '/' :: '/' ::
        interL ['/'] (withTail ((P ++ R).map Prod.snd) tail) ∧
      TextOk t ∧ (∀ s ∈ P ++ R, SegOf o s.1 s.2) ∧ TailOk tail := by
  rw [traverse_eq_rowsRel] at hrow
  rw [List.mem_map] at hrow
  obtain ⟨tr, htr, rfl⟩ := hrow
  obtain ⟨htext, ps, tail, hdec, hsegs, htail⟩ := rowsRel_ok o n hns hct tr htr
  refine ⟨tr.1, ps, tail, ?_, htext, ?_, htail⟩
  · rw [String.data_append, String.data_append, String.data_append, hp, hdec]
    rw [show (" : ").data = [' ', ':', ' '] from rfl]
    simp only [List.append_assoc, List.cons_append, List.nil_append]
    rw [← List.append_assoc (interL ['/'] (P.map Prod.snd))]
    rw [interL_append_seGlue (P.map Prod.snd) (ps.map Prod.snd) (by simpa using hP)]
    rw [← List.map_append]
    rw [interL_withTail ((P ++ ps).map Prod.snd) tail
      (by cases P with | nil => exact absurd rfl hP | cons a l => simp)]
  · intro s hs
    rw [List.mem_append] at hs
    cases hs with
    | inl hs => exact hPsegs s hs
    | inr hs => exact hsegs s hs

theorem withTail_ne_nil (ps : List (List Char)) (tail : List Char) :
    withTail ps tail ≠ [] := by
  match ps with
  | [] => simp [withTail]
  | [q] => simp [withTail]
  | q :: r :: rest => simp [withTail]

theorem resolveStart_isElem (root : XNode) (o : Options) (stag : String)
    (p : List Nat) (h : resolveStart root o stag = some p) :
    ∃ pred, findPosN pred root = some p ∧ ∀ m, pred m = true → isElem m = true := by
  rw [resolveStart] at h
  split at h
  next tl heq =>
    cases h
    exact ⟨byLocal stag, heq,
      fun m hm => by rw [byLocal, Bool.and_eq_true] at hm; exact hm.1⟩
  next =>
    split at h
    next tl heq =>
      cases h
      exact ⟨byNodeName stag, heq,
        fun m hm => by rw [byNodeName, Bool.and_eq_true] at hm; exact hm.1⟩
    next =>
      split at h
      next tl heq =>
        cases h
        exact ⟨byNodeName (o.nspace ++ ":" ++ stag), heq,
          fun m hm => by rw [byNodeName, Bool.and_eq_true] at hm; exact hm.1⟩
      next =>
        exact ⟨byLocalCI (lowerChars stag.data), h,
          fun m hm => by rw [byLocalCI, Bool.and_eq_true] at hm; exact hm.1⟩

theorem generateRows_line (o : Options) (root : XNode)
    (hns : cleanNs o.nspace = true) (hct : cleanTreeN root = true) :
    ∀ row ∈ generateRows root o, ∃ (t : String) (ps2 : List (List Char)),
      row.data = t.data ++ ' ' :: ':' :: ' ' :: '/' :: '/' :: interL ['/'] ps2 ∧
      TextOk t ∧ ps2 ≠ [] ∧ ∀ q ∈ ps2, PieceOk o q := by
  intro row hrow
  simp only [generateRows] at hrow
  split at hrow
  -- start node resolved: traversal from the found element
  case h_1 p hsp =>
    have hres : resolveStart root o (o.startAtTag.getD "") = some p := by
      by_cases hst : o.startAtTag.getD "" = ""
      · rw [if_pos hst] at hsp; cases hsp
      · rw [if_neg hst] at hsp; exact hsp
    obtain ⟨pred, hfind, helem⟩ := resolveStart_isElem root o _ p hres
    obtain ⟨hpred, hcn⟩ := findPosN_spec pred root p hfind hct
    have hel : isElem (nodeAt root p) = true := helem _ hpred
    match hnode : nodeAt root p with
    | .text s => rw [hnode] at hel; simp [isElem] at hel
    | .elem ctag cattrs cch =>
      rw [hnode] at hcn
      rw [cleanTreeN] at hcn
      simp only [Bool.and_eq_true] at hcn
      obtain ⟨⟨⟨htag, hattrs⟩, _⟩, _⟩ := hcn
      have hget : (ctxAt root p).1.getD (ctxAt root p).2 (.text "") =
          XNode.elem ctag cattrs cch := by rw [ctxAt_getD, hnode]
      have hbsp : ∃ idx, buildStartPathForElement o (ctxAt root p).1 (ctxAt root p).2 =
          "//" ++ o.nspace ++ ":" ++ localNameOf ctag ++
            attrPredStr o.attributesToIncludeInPath cattrs ++
            indexStrFor o (localNameOf ctag) idx := by
        rw [buildStartPathForElement, hget]
        exact ⟨_, rfl⟩
      obtain ⟨idx, hbsp⟩ := hbsp
      rw [hbsp] at hrow
      have hseg := segOf_piece o ctag cattrs idx htag hattrs
      obtain ⟨t, R, tail, hdec, htext, hsegs, htail⟩ :=
        row_line o (XNode.elem ctag cattrs cch)
          [(localNameOf ctag, (o.nspace ++ ":" ++ localNameOf ctag ++
            attrPredStr o.attributesToIncludeInPath cattrs ++
            indexStrFor o (localNameOf ctag) idx).data)]
          ("//" ++ o.nspace ++ ":" ++ localNameOf ctag ++
            attrPredStr o.attributesToIncludeInPath cattrs ++
            indexStrFor o (localNameOf ctag) idx) row hns
          (hnode ▸ findPosN_spec pred root p hfind hct).2
          (by simp)
          (by intro s hs; rw [List.mem_singleton] at hs; rw [hs]; exact hseg)
          (by simp [interL, String.data_append])
          (hnode ▸ hrow)
      refine ⟨t, withTail ((([(localNameOf ctag, (o.nspace ++ ":" ++ localNameOf ctag ++
        attrPredStr o.attributesToIncludeInPath cattrs ++
        indexStrFor o (localNameOf ctag) idx).data)] ++ R)).map Prod.snd) tail,
        hdec, htext, withTail_ne_nil _ _, pieces_ok o _ tail hns hsegs htail (by simp)⟩
  -- no start tag: traversal from the document element with the fixed prefix
  case h_2 hsp =>
    match root, hct with
    | .text s, _ =>
      rw [traverse_eq_rowsRel, rowsRel] at hrow
      simp at hrow
    | .elem tag attrs ch, hct =>
      have htag : cleanName tag = true := by
        rw [cleanTreeN] at hct
        simp only [Bool.and_eq_true] at hct
        exact hct.1.1.1
      have hseg : SegOf o (localNameOf tag)
          ((o.nspace ++ ":" ++ localNameOf tag ++ "[1]").data) := by
        refine ⟨['[', '1', ']'], by simp [String.data_append], ?_, Or.inr ⟨['1'], rfl⟩, ?_⟩
        · rw [localNameOf_clean tag htag]; exact htag
        · intro c hc; fin_cases hc <;> decide
      obtain ⟨t, R, tail, hdec, htext, hsegs, htail⟩ :=
        row_line o (.elem tag attrs ch)
          [(localNameOf tag, (o.nspace ++ ":" ++ localNameOf tag ++ "[1]").data)]
          ("//" ++ o.nspace ++ ":" ++ localNameOf (tagOf (XNode.elem tag attrs ch)) ++ "[1]")
          row hns hct (by simp)
          (by intro s hs; rw [List.mem_singleton] at hs; rw [hs]; exact hseg)
          (by simp [interL, String.data_append, tagOf])
          hrow
      exact ⟨t, _, hdec, htext, withTail_ne_nil _ _,
        pieces_ok o _ tail hns hsegs htail (by simp)⟩

/-! ## Line format invariant through the pipeline -/

theorem mem_interL {c : Char} (sep : List Char) (ps : List (List Char))
    (h : c ∈ interL sep ps) : c ∈ sep ∨ ∃ q ∈ ps, c ∈ q := by
  match ps with
  | [] => rw [interL] at h; exact absurd h (List.not_mem_nil c)
  | [s] => rw [interL] at h; exact Or.inr ⟨s, by simp, h⟩
  | s :: r :: rest =>
    rw [show interL sep (s :: r :: rest) = s ++ sep ++ interL sep (r :: rest) from rfl] at h
    simp only [List.append_assoc, List.mem_append] at h
    rcases h with h | h | h
    · exact Or.inr ⟨s, by simp, h⟩
    · exact Or.inl h
    · rcases mem_interL sep (r :: rest) h with h | ⟨q, hq, hc⟩
      · exact Or.inl h
      · exact Or.inr ⟨q, List.mem_cons_of_mem s hq, hc⟩

theorem interL_head (sep : List Char) (q : List Char) (qs : List (List Char)) :
    ∃ u, interL sep (q :: qs) = q ++ u := by
  match qs with
  | [] => exact ⟨[], by rw [interL]; simp⟩
  | r :: rest =>
    exact ⟨sep ++ interL sep (r :: rest),
      by rw [show interL sep (q :: r :: rest) = q ++ sep ++ interL sep (r :: rest) from rfl]; simp⟩

theorem findSegIdx_lt (want : List Char) (ps : List (List Char)) (j : Nat)
    (h : findSegIdx want ps = some j) : j < ps.length := by
  match ps, j with
  | [], j => rw [findSegIdx] at h; cases h
  | s :: rest, j =>
    rw [findSegIdx] at h
    split_ifs at h with hc
    · cases h; simp
    · rw [Option.map_eq_some'] at h
      obtain ⟨j0, hj0, rfl⟩ := h
      have := findSegIdx_lt want rest j0 hj0
      simpa using this

theorem map_prefixNs_id (nsd : List Char) (L : List (List Char))
    (h : ∀ q ∈ L, ':' ∈ q) :
    L.map (fun s => if s.contains ':' then s else nsd ++ ':' :: s) = L := by
  induction L with
  | nil => rfl
  | cons q rest ih =>
    rw [List.map_cons, if_pos (by
      have := h q (by simp)
      simpa [List.contains, List.elem_iff] using this)]
    rw [ih (fun x hx => h x (List.mem_cons_of_mem q hx))]

/-- invariant format of a pipeline line: clean row text, the separator, a
double slash and a non-empty slash-join of well-formed pieces. -/
def RowFmt (o : Options) (line : List Char) : Prop :=
  ∃ (t : List Char) (ps2 : List (List Char)),
    line = t ++ ' ' :: ':' :: ' ' :: '/' :: '/' :: interL ['/'] ps2 ∧
    t ≠ [] ∧ (∀ c ∈ t, textChar c = true) ∧ ps2 ≠ [] ∧ ∀ q ∈ ps2, PieceOk o q

theorem generateRows_fmt (o : Options) (root : XNode)
    (hns : cleanNs o.nspace = true) (hct : cleanTreeN root = true) :
    ∀ row ∈ generateRows root o, RowFmt o row.data := by
  intro row hrow
  obtain ⟨t, ps2, hdec, htext, hps, hpok⟩ := generateRows_line o root hns hct row hrow
  refine ⟨t.data, ps2, hdec, ?_, htext.2, hps, hpok⟩
  intro hnil
  apply htext.1
  cases t with
  | mk l => rw [show ("" : String) = String.mk [] from rfl]; exact congrArg String.mk hnil

theorem rowFmt_no_break (o : Options) (line : List Char) (h : RowFmt o line) :
    '\n' ∉ line ∧ '\r' ∉ line := by
  obtain ⟨t, ps2, rfl, _, htc, _, hpok⟩ := h
  constructor <;>
  · intro hmem
    simp only [List.mem_append, List.mem_cons] at hmem
    rcases hmem with hm | hm | hm | hm | hm | hm | hm
    · have := htc _ hm; simp [textChar] at this
    · exact absurd hm (by decide)
    · exact absurd hm (by decide)
    · exact absurd hm (by decide)
    · exact absurd hm (by decide)
    · exact absurd hm (by decide)
    · rcases mem_interL ['/'] ps2 hm with hm | ⟨q, hq, hc⟩
      · exact absurd hm (by decide)
      · have := (hpok q hq).2.1 _ hc; simp [valueChar] at this

theorem rowFmt_trim (o : Options) (want nsd line : List Char) (h : RowFmt o line) :
    RowFmt o (trimLineL want nsd line) := by
  obtain ⟨t, ps2, rfl, htne, htc, hps, hpok⟩ := h
  have hcore := trimLine_core want nsd (String.mk t) ps2 htne htc hps
    (fun q hq => ⟨(hpok q hq).1, (hpok q hq).2.1⟩)
    (fun q c hq hc => (hpok q (mem_of_getLast?_my hq)).2.2.2 c hc)
  rw [show (String.mk t).data = t from rfl] at hcore
  rw [hcore]
  match hfind : findSegIdx want ps2 with
  | none => exact ⟨t, ps2, rfl, htne, htc, hps, hpok⟩
  | some j =>
    have hmem : ∀ q ∈ ps2.drop j, PieceOk o q :=
      fun q hq => hpok q (List.mem_of_mem_drop hq)
    show RowFmt o (t ++ ' ' :: ':' :: ' ' :: '/' :: '/' :: interL ['/']
      ((ps2.drop j).map (fun s => if s.contains ':' then s else nsd ++ ':' :: s)))
    rw [map_prefixNs_id nsd (ps2.drop j) (by
      intro q hq
      obtain ⟨r, hr⟩ := (hmem q hq).2.2.1
      rw [hr]; simp)]
    refine ⟨t, ps2.drop j, rfl, htne, htc, ?_, hmem⟩
    intro hnil
    have hlt := findSegIdx_lt want ps2 j hfind
    have : ps2.length ≤ j := by
      have := congrArg List.length hnil
      simp at this
      omega
    omega

theorem rowFmt_shape (o : Options) (line : List Char) (h : RowFmt o line) :
    ∃ t rest, line = t ++ ' ' :: ':' :: ' ' :: '/' :: '/' ::
      (o.nspace.data ++ ':' :: rest) := by
  obtain ⟨t, ps2, rfl, _, _, hps, hpok⟩ := h
  match ps2, hps with
  | q0 :: qs, _ =>
    obtain ⟨u, hu⟩ := interL_head ['/'] q0 qs
    obtain ⟨r, hr⟩ := (hpok q0 (by simp)).2.2.1
    refine ⟨t, r ++ u, ?_⟩
    rw [hu, hr]
    simp

theorem interL_lines (o : Options) (ls : List (List Char))
    (h : ∀ l ∈ ls, l = [] ∨ RowFmt o l) :
    ∀ line ∈ splitLinesL (interL ['\n'] ls), line = [] ∨ RowFmt o line := by
  match ls with
  | [] =>
    intro line hline
    rw [show interL ['\n'] ([] : List (List Char)) = [] from rfl] at hline
    rw [show splitLinesL [] = [[]] from rfl] at hline
    rw [List.mem_singleton] at hline
    exact Or.inl hline
  | l0 :: rest =>
    rw [splitLinesL_interL (l0 :: rest) (by simp) (by
      intro r hr
      rcases h r hr with rfl | hfmt
      · exact ⟨List.not_mem_nil _, List.not_mem_nil _⟩
      · exact rowFmt_no_break o r hfmt)]
    exact h

theorem mainPipeline_lines (o : Options) (root : XNode)
    (hns : cleanNs o.nspace = true) (hct : cleanTreeN root = true) :
    ∀ line ∈ splitLinesL (mainPipeline root o).data, line = [] ∨ RowFmt o line := by
  have hrows := generateRows_fmt o root hns hct
  have h1 : ∀ line ∈ splitLinesL (generateXpathList root o).data,
      line = [] ∨ RowFmt o line := by
    rw [show (generateXpathList root o).data =
      interL ['\n'] ((generateRows root o).map String.data) from rfl]
    apply interL_lines
    intro l hl
    rw [List.mem_map] at hl
    obtain ⟨r, hr, rfl⟩ := hl
    exact Or.inr (hrows r hr)
  rw [mainPipeline]
  match o.startAtTag with
  | none => exact h1
  | some st =>
    show ∀ line ∈ splitLinesL ((if st = "" then generateXpathList root o
      else trimGeneratedXPaths (generateXpathList root o) st
        (if o.nspace = "" then "d" else o.nspace))).data, line = [] ∨ RowFmt o line
    by_cases hst : st = ""
    · rw [if_pos hst]; exact h1
    · rw [if_neg hst]
      rw [trimGeneratedXPaths, if_neg hst]
      rw [show (String.mk (interL ['\n']
        ((splitLinesL (generateXpathList root o).data).map
          (trimLineL (lowerChars st.data)
            (if o.nspace = "" then "d" else o.nspace).data)))).data =
        interL ['\n'] ((splitLinesL (generateXpathList root o).data).map
          (trimLineL (lowerChars st.data)
            (if o.nspace = "" then "d" else o.nspace).data)) from rfl]
      apply interL_lines
      intro l hl
      rw [List.mem_map] at hl
      obtain ⟨l0, hl0, rfl⟩ := hl
      rcases h1 l0 hl0 with rfl | hfmt
      · exact Or.inl rfl
      · exact Or.inr (rowFmt_trim o _ _ l0 hfmt)

/-- tree and options of the C10 amended-claim witness: a clean two-level
document traversed with a start tag, so both the row invariant and the
post-trim line invariant are exercised. -/
def treeW10 : XNode :=
  .elem "r" [] (.cons (.elem "a" [] (.cons (.text "v") .nil)) .nil)

def oW10 : Options := normalizeOptions { startAtTag := some "a" }

/-- C10 (amended): on a clean namespace and a clean tree the claimed prefix
invariant does hold: every row emitted by generateXpathList reads
text : //ns:rest, and after the full pipeline, truncation pass included,
every output line is either empty or again of the form
text : //ns:rest. On unrestricted inputs the invariant fails (C10
counterexample), because the truncation pass re-parses the path out of the
joined text. -/
theorem C10_amended (o : Options) (root : XNode)
    (hns : cleanNs o.nspace = true) (hct : cleanTreeN root = true) :
    (∀ row ∈ generateRows root o, ∃ t rest : String,
        row = t ++ " : //" ++ o.nspace ++ ":" ++ rest) ∧
    (∀ line ∈ splitLinesL (mainPipeline root o).data,
        line = [] ∨ ∃ t rest : List Char,
          line = t ++ ' ' :: ':' :: ' ' :: '/' :: '/' ::
            (o.nspace.data ++ ':' :: rest)) := by
  constructor
  · intro row hrow
    obtain ⟨t, rest, hsh⟩ :=
      rowFmt_shape o row.data (generateRows_fmt o root hns hct row hrow)
    refine ⟨String.mk t, String.mk rest, ?_⟩
    cases row with
    | mk l =>
      apply congrArg String.mk
      rw [show (String.mk l).data = l from rfl] at hsh
      rw [hsh]
      simp [String.data_append]
  · intro line hline
    rcases mainPipeline_lines o root hns hct line hline with rfl | hfmt
    · exact Or.inl rfl
    · exact Or.inr (rowFmt_shape o line hfmt)

/-- C10 (amended, witness): the invariant instantiated on the witness tree
and options, whose cleanliness is decided concretely. -/
theorem C10_amended_witness :
    cleanNs oW10.nspace = true ∧ cleanTreeN treeW10 = true ∧
    ((∀ row ∈ generateRows treeW10 oW10, ∃ t rest : String,
        row = t ++ " : //" ++ oW10.nspace ++ ":" ++ rest) ∧
     (∀ line ∈ splitLinesL (mainPipeline treeW10 oW10).data,
        line = [] ∨ ∃ t rest : List Char,
          line = t ++ ' ' :: ':' :: ' ' :: '/' :: '/' ::
            (oW10.nspace.data ++ ':' :: rest))) :=
  ⟨by decide, by decide, C10_amended oW10 treeW10 (by decide) (by decide)⟩

/-! ## Chain decomposition machinery for the start-tag round trip -/

/-- sibling key of an element child, as the traverse child loop builds it. -/
def keyOf (o : Options) : XNode → String
  | .text _ => ""
  | .elem t a _ =>
    o.nspace ++ ":" ++ localNameOf t ++ attrPredStr o.attributesToIncludeInPath a

/-- one counter update of the traverse child loop. -/
def bumpCnt (o : Options) (cnt : List (String × Nat)) : XNode → List (String × Nat)
  | .text _ => cnt
  | .elem t a ch =>
    setCnt (keyOf o (.elem t a ch)) (lookupCnt (keyOf o (.elem t a ch)) cnt + 1) cnt

/-- counters after the child loop has processed the given prefix of children. -/
def cntAfter (o : Options) (l : List XNode) (cnt : List (String × Nat)) :
    List (String × Nat) :=
  l.foldl (bumpCnt o) cnt

theorem lookupCnt_setCnt_self (k : String) (v : Nat) (c : List (String × Nat)) :
    lookupCnt k (setCnt k v c) = v := by
  induction c with
  | nil => simp [setCnt, lookupCnt]
  | cons e r ih =>
    rw [setCnt]
    by_cases h : e.1 = k
    · rw [if_pos h, lookupCnt, if_pos h]
    · rw [if_neg h, lookupCnt, if_neg h, ih]

theorem lookupCnt_setCnt_ne (k k2 : String) (v : Nat) (c : List (String × Nat))
    (h : k ≠ k2) : lookupCnt k2 (setCnt k v c) = lookupCnt k2 c := by
  induction c with
  | nil => simp [setCnt, lookupCnt, h]
  | cons e r ih =>
    rw [setCnt]
    by_cases he : e.1 = k
    · rw [if_pos he, lookupCnt, lookupCnt, if_neg (he ▸ h), if_neg (he ▸ h)]
    · rw [if_neg he, lookupCnt, lookupCnt]
      by_cases h2 : e.1 = k2
      · rw [if_pos h2, if_pos h2]
      · rw [if_neg h2, if_neg h2, ih]

theorem cntAfter_lookup (o : Options) (pre : List XNode) (key : String)
    (cnt : List (String × Nat)) :
    lookupCnt key (cntAfter o pre cnt) =
      lookupCnt key cnt + pre.countP (fun s => isElem s && (keyOf o s == key)) := by
  induction pre generalizing cnt with
  | nil => simp [cntAfter]
  | cons c pre2 ih =>
    rw [show cntAfter o (c :: pre2) cnt = cntAfter o pre2 (bumpCnt o cnt c) from rfl]
    rw [ih, List.countP_cons]
    match c with
    | .text s => simp [bumpCnt, isElem]
    | .elem t a ch =>
      by_cases hk : keyOf o (.elem t a ch) = key
      · rw [show bumpCnt o cnt (.elem t a ch) = setCnt (keyOf o (.elem t a ch))
          (lookupCnt (keyOf o (.elem t a ch)) cnt + 1) cnt from rfl]
        rw [hk, lookupCnt_setCnt_self]
        simp [isElem, hk]
        omega
      · rw [show bumpCnt o cnt (.elem t a ch) = setCnt (keyOf o (.elem t a ch))
          (lookupCnt (keyOf o (.elem t a ch)) cnt + 1) cnt from rfl]
        rw [lookupCnt_setCnt_ne _ _ _ _ hk]
        simp [isElem, hk]

theorem countP_congr_mem {α : Type} (l : List α) (p q : α → Bool)
    (h : ∀ a ∈ l, p a = q a) : l.countP p = l.countP q := by
  induction l with
  | nil => rfl
  | cons c r ih =>
    rw [List.countP_cons, List.countP_cons, h c (by simp),
      ih (fun a ha => h a (List.mem_cons_of_mem c ha))]

theorem str_data_ext (a b : String) (h : a.data = b.data) : a = b := by
  cases a
  cases b
  exact congrArg String.mk h

theorem nameChar_not_bracket {c : Char} (h : nameChar c = true) : c ≠ '[' := by
  intro he
  rw [he] at h
  simp [nameChar] at h

theorem takeWhile_bracket (l p : List Char) (hl : ∀ c ∈ l, c ≠ '[')
    (hp : p = [] ∨ ∃ m, p = '[' :: m) :
    (l ++ p).takeWhile (fun c => c ≠ '[') = l ∧
      (l ++ p).dropWhile (fun c => c ≠ '[') = p := by
  induction l with
  | nil =>
    rcases hp with rfl | ⟨m, rfl⟩
    · simp
    · simp [List.takeWhile_cons, List.dropWhile_cons]
  | cons c l2 ih =>
    have hc := hl c (by simp)
    rw [List.cons_append, List.takeWhile_cons, List.dropWhile_cons]
    rw [if_pos (by simpa using hc), if_pos (by simpa using hc)]
    obtain ⟨ht, hd⟩ := ih (fun x hx => hl x (List.mem_cons_of_mem c hx))
    exact ⟨by rw [ht], hd⟩

theorem bracketShape_starts (d : List Char) (h : BracketShape d) :
    d = [] ∨ ∃ m, d = '[' :: m := by
  rcases h with rfl | ⟨m, rfl⟩
  · exact Or.inl rfl
  · exact Or.inr ⟨m ++ [']'], rfl⟩

theorem key_inj (ns l1 l2 p1 p2 : String)
    (h1 : cleanName l1 = true) (h2 : cleanName l2 = true)
    (s1 : BracketShape p1.data) (s2 : BracketShape p2.data)
    (heq : ns ++ ":" ++ l1 ++ p1 = ns ++ ":" ++ l2 ++ p2) :
    l1 = l2 ∧ p1 = p2 := by
  have hd0 := congrArg String.data heq
  simp only [String.data_append, List.append_assoc] at hd0
  have hd : l1.data ++ p1.data = l2.data ++ p2.data := by
    exact List.append_cancel_left (List.append_cancel_left hd0)
  have hb1 : ∀ c ∈ l1.data, c ≠ '[' :=
    fun c hc => nameChar_not_bracket (List.all_eq_true.mp h1 c hc)
  have hb2 : ∀ c ∈ l2.data, c ≠ '[' :=
    fun c hc => nameChar_not_bracket (List.all_eq_true.mp h2 c hc)
  have t1 := takeWhile_bracket l1.data p1.data hb1 (bracketShape_starts _ s1)
  have t2 := takeWhile_bracket l2.data p2.data hb2 (bracketShape_starts _ s2)
  have hld : l1.data = l2.data := by rw [← t1.1, ← t2.1, hd]
  refine ⟨str_data_ext l1 l2 hld, str_data_ext p1 p2 ?_⟩
  rw [← t1.2, ← t2.2, hd]

theorem keyMatch_eq (o : Options) (local_ pstr : String) (s : XNode)
    (hname : cleanName local_ = true) (hps : BracketShape pstr.data)
    (hs : cleanTreeN s = true) :
    (isElem s && (keyOf o s == o.nspace ++ ":" ++ local_ ++ pstr)) =
      (isElem s && (localNameOf (tagOf s) == local_) &&
        (attrPredStr o.attributesToIncludeInPath (attrsOf s) == pstr)) := by
  match s with
  | .text str => simp [isElem]
  | .elem t a ch =>
    rw [cleanTreeN] at hs
    simp only [Bool.and_eq_true] at hs
    obtain ⟨⟨⟨htag, hattrs⟩, _⟩, _⟩ := hs
    have hlt : cleanName (localNameOf t) = true := by
      rw [localNameOf_clean t htag]; exact htag
    have hsh := (attrPredStr_shape o.attributesToIncludeInPath a hattrs).1
    by_cases h1 : localNameOf t = local_
    · by_cases h2 : attrPredStr o.attributesToIncludeInPath a = pstr
      · have hk : keyOf o (.elem t a ch) = o.nspace ++ ":" ++ local_ ++ pstr := by
          rw [show keyOf o (.elem t a ch) = o.nspace ++ ":" ++ localNameOf t ++
            attrPredStr o.attributesToIncludeInPath a from rfl, h1, h2]
        simp [isElem, tagOf, attrsOf, hk, h1, h2]
      · have hk : keyOf o (.elem t a ch) ≠ o.nspace ++ ":" ++ local_ ++ pstr := fun he =>
          h2 (key_inj o.nspace (localNameOf t) local_
            (attrPredStr o.attributesToIncludeInPath a) pstr hlt hname hsh hps he).2
        have hkb : (keyOf o (XNode.elem t a ch) ==
            o.nspace ++ ":" ++ local_ ++ pstr) = false := beq_eq_false_iff_ne.mpr hk
        have hab : (attrPredStr o.attributesToIncludeInPath a == pstr) = false :=
          beq_eq_false_iff_ne.mpr h2
        simp [isElem, tagOf, attrsOf, hkb, hab]
    · have hk : keyOf o (.elem t a ch) ≠ o.nspace ++ ":" ++ local_ ++ pstr := fun he =>
        h1 (key_inj o.nspace (localNameOf t) local_
          (attrPredStr o.attributesToIncludeInPath a) pstr hlt hname hsh hps he).1
      have hkb : (keyOf o (XNode.elem t a ch) ==
          o.nspace ++ ":" ++ local_ ++ pstr) = false := beq_eq_false_iff_ne.mpr hk
      have hlb : (localNameOf t == local_) = false := beq_eq_false_iff_ne.mpr h1
      simp [isElem, tagOf, attrsOf, hkb, hlb]

theorem cnt_eq_filter (o : Options) (pre : List XNode) (local_ pstr : String)
    (hname : cleanName local_ = true) (hps : BracketShape pstr.data)
    (hpre : ∀ s ∈ pre, cleanTreeN s = true) :
    lookupCnt (o.nspace ++ ":" ++ local_ ++ pstr) (cntAfter o pre []) =
      (pre.filter (fun s => isElem s && (localNameOf (tagOf s) == local_) &&
        (attrPredStr o.attributesToIncludeInPath (attrsOf s) == pstr))).length := by
  rw [cntAfter_lookup]
  rw [show lookupCnt (o.nspace ++ ":" ++ local_ ++ pstr) [] = 0 from rfl]
  rw [Nat.zero_add]
  rw [countP_congr_mem pre _ _
    (fun s hsm => keyMatch_eq o local_ pstr s hname hps (hpre s hsm))]
  exact List.countP_eq_length_filter _ pre

theorem rowsRel_len (o : Options) (n : XNode) :
    (rowsRel o n).length = countLeaves o n := by
  have h1 := traverse_length o n ""
  rw [traverse_eq_rowsRel] at h1
  simpa using h1

theorem rowsRelL_len (o : Options) (l : XList) (cnt : List (String × Nat)) :
    (rowsRelL o l cnt).length = countLeavesL o l := by
  have h1 := traverseChildren_length o l "" cnt
  rw [traverseChildren_eq_rowsRelL] at h1
  simpa using h1

theorem rowsRel_eq_nil (o : Options) (n : XNode) (h : countLeaves o n = 0) :
    rowsRel o n = [] := by
  have := rowsRel_len o n
  rw [h] at this
  exact List.length_eq_zero.mp this

theorem rowsRelL_eq_nil (o : Options) (l : XList) (cnt : List (String × Nat))
    (h : countLeavesL o l = 0) : rowsRelL o l cnt = [] := by
  have := rowsRelL_len o l cnt
  rw [h] at this
  exact List.length_eq_zero.mp this

theorem countLeavesL_zero (o : Options) (l : XList)
    (h : ∀ j, j < l.toList.length → countLeaves o (l.toList.getD j (.text "")) = 0) :
    countLeavesL o l = 0 := by
  match l with
  | .nil => rfl
  | .cons c r =>
    rw [countLeavesL]
    have hc := h 0 (by simp [XList.toList])
    rw [show (XList.cons c r).toList.getD 0 (.text "") = c from rfl] at hc
    rw [hc, countLeavesL_zero o r (fun j hj => h (j + 1) (by
      rw [show (XList.cons c r).toList = c :: r.toList from rfl]
      simpa using hj))]

/-- path piece generated by the traverse child loop for the child at the
given index, with the given starting counters: qualified local name,
attribute predicates, and the per-identity sibling index reached after the
loop has processed the preceding siblings. -/
def pieceAtCnt (o : Options) (sibs : List XNode) (cnt : List (String × Nat))
    (i : Nat) : String :=
  match sibs.getD i (.text "") with
  | .text _ => ""
  | .elem ctag cattrs _ =>
    o.nspace ++ ":" ++ localNameOf ctag ++ attrPredStr o.attributesToIncludeInPath cattrs ++
      indexStrFor o (localNameOf ctag)
        (lookupCnt (o.nspace ++ ":" ++ localNameOf ctag ++
            attrPredStr o.attributesToIncludeInPath cattrs)
          (cntAfter o (sibs.take i) cnt) + 1)

def pieceAt (o : Options) (sibs : List XNode) (i : Nat) : String :=
  pieceAtCnt o sibs [] i

/-- path segments accumulated by traverse along a childNodes index chain. -/
def segsFor (o : Options) (n : XNode) : List Nat → String
  | [] => ""
  | i :: rest =>
    "/" ++ pieceAt o (childrenOf n).toList i ++
      segsFor o ((childrenOf n).toList.getD i (.text "")) rest

/-- chain condition for the start-tag round trip: along the childNodes index
chain every ancestor is unignored and does not itself match the wanted tag,
each index is in range and names an element child, and every off-chain
sibling subtree contributes no leaf row. -/
def chainOkB (o : Options) (want : List Char) : XNode → List Nat → Bool
  | _, [] => true
  | n, i :: rest =>
    !(o.ignoreLeafNodes.contains (localNameOf (tagOf n))) &&
    (lowerChars (localNameOf (tagOf n)).data != want) &&
    decide (i < (childrenOf n).toList.length) &&
    isElem ((childrenOf n).toList.getD i (.text "")) &&
    (List.range (childrenOf n).toList.length).all (fun j =>
      (j == i) || (countLeaves o ((childrenOf n).toList.getD j (.text "")) == 0)) &&
    chainOkB o want ((childrenOf n).toList.getD i (.text "")) rest

theorem toList_cons (c : XNode) (r : XList) :
    (XList.cons c r).toList = c :: r.toList := rfl

theorem rowsRelL_single (o : Options) (l : XList) (i : Nat) (cnt : List (String × Nat))
    (hi : i < l.toList.length)
    (hz : ∀ j, j < l.toList.length → j ≠ i →
      countLeaves o (l.toList.getD j (.text "")) = 0) :
    rowsRelL o l cnt =
      (rowsRel o (l.toList.getD i (.text ""))).map
        (fun tr => (tr.1, "/" ++ pieceAtCnt o l.toList cnt i ++ tr.2)) := by
  match l, i with
  | .nil, i => simp [XList.toList] at hi
  | .cons c r, 0 =>
    match c with
    | .text s =>
      rw [rowsRelL]
      rw [show (XList.cons (XNode.text s) r).toList.getD 0 (.text "") =
        XNode.text s from rfl]
      rw [show rowsRel o (XNode.text s) = [] from rfl, List.map_nil]
      apply rowsRelL_eq_nil
      apply countLeavesL_zero
      intro j hj
      have := hz (j + 1) (by
        rw [show (XList.cons (XNode.text s) r).toList = XNode.text s :: r.toList from rfl]
        simpa using hj) (by simp)
      simpa [toList_cons] using this
    | .elem ctag cattrs cch =>
      rw [rowsRelL]
      have hnil : rowsRelL o r
          (setCnt (o.nspace ++ ":" ++ localNameOf ctag ++
              attrPredStr o.attributesToIncludeInPath cattrs)
            (lookupCnt (o.nspace ++ ":" ++ localNameOf ctag ++
              attrPredStr o.attributesToIncludeInPath cattrs) cnt + 1) cnt) = [] := by
        apply rowsRelL_eq_nil
        apply countLeavesL_zero
        intro j hj
        have := hz (j + 1) (by
          rw [show (XList.cons (XNode.elem ctag cattrs cch) r).toList =
            XNode.elem ctag cattrs cch :: r.toList from rfl]
          simpa using hj) (by simp)
        simpa [toList_cons] using this
      rw [hnil, List.append_nil]
      have hseg : ("/" : String) ++ (o.nspace ++ ":" ++ localNameOf ctag) ++
          attrPredStr o.attributesToIncludeInPath cattrs ++
          indexStrFor o (localNameOf ctag)
            (lookupCnt ((o.nspace ++ ":" ++ localNameOf ctag) ++
              attrPredStr o.attributesToIncludeInPath cattrs) cnt + 1) =
          "/" ++ pieceAtCnt o (XList.cons (XNode.elem ctag cattrs cch) r).toList cnt 0 := by
        apply str_data_ext
        rw [show pieceAtCnt o (XList.cons (XNode.elem ctag cattrs cch) r).toList cnt 0 =
          o.nspace ++ ":" ++ localNameOf ctag ++
            attrPredStr o.attributesToIncludeInPath cattrs ++
            indexStrFor o (localNameOf ctag)
              (lookupCnt (o.nspace ++ ":" ++ localNameOf ctag ++
                  attrPredStr o.attributesToIncludeInPath cattrs) cnt + 1) from rfl]
        simp [String.data_append]
      rw [hseg]
      rfl
  | .cons c r, j + 1 =>
    match c with
    | .text s =>
      rw [rowsRelL]
      exact rowsRelL_single o r j cnt (by
          rw [show (XList.cons (XNode.text s) r).toList =
            XNode.text s :: r.toList from rfl] at hi
          simpa using hi)
        (fun j2 hj2 hne => by
          have := hz (j2 + 1) (by
            rw [show (XList.cons (XNode.text s) r).toList =
              XNode.text s :: r.toList from rfl]
            simpa using hj2) (by simpa using hne)
          simpa [toList_cons] using this)
    | .elem ctag cattrs cch =>
      rw [rowsRelL]
      have hc0 : rowsRel o (.elem ctag cattrs cch) = [] := by
        apply rowsRel_eq_nil
        have := hz 0 (by simp [XList.toList]) (by simp)
        simpa [toList_cons] using this
      rw [hc0, List.map_nil, List.nil_append]
      exact rowsRelL_single o r j
        (setCnt (o.nspace ++ ":" ++ localNameOf ctag ++
            attrPredStr o.attributesToIncludeInPath cattrs)
          (lookupCnt (o.nspace ++ ":" ++ localNameOf ctag ++
            attrPredStr o.attributesToIncludeInPath cattrs) cnt + 1) cnt)
        (by
          rw [show (XList.cons (XNode.elem ctag cattrs cch) r).toList =
            XNode.elem ctag cattrs cch :: r.toList from rfl] at hi
          simpa using hi)
        (fun j2 hj2 hne => by
          have := hz (j2 + 1) (by
            rw [show (XList.cons (XNode.elem ctag cattrs cch) r).toList =
              XNode.elem ctag cattrs cch :: r.toList from rfl]
            simpa using hj2) (by simpa using hne)
          simpa [toList_cons] using this)

theorem hasElemChild_of (l : XList) (i : Nat) (hi : i < l.toList.length)
    (he : isElem (l.toList.getD i (.text "")) = true) : hasElemChild l = true := by
  match l, i with
  | .nil, _ => simp [XList.toList] at hi
  | .cons c r, 0 =>
    rw [hasElemChild]
    rw [show (XList.cons c r).toList.getD 0 (.text "") = c from rfl] at he
    simp [he]
  | .cons c r, j + 1 =>
    rw [hasElemChild]
    have := hasElemChild_of r j (by simpa [toList_cons] using hi)
      (by simpa [toList_cons] using he)
    simp [this]

theorem map_congr_mem {α β : Type} (l : List α) (f g : α → β)
    (h : ∀ a ∈ l, f a = g a) : l.map f = l.map g := by
  induction l with
  | nil => rfl
  | cons c r ih =>
    rw [List.map_cons, List.map_cons, h c (by simp),
      ih (fun a ha => h a (List.mem_cons_of_mem c ha))]

theorem rangeAll_zero (o : Options) (L : List XNode) (i : Nat)
    (h : (List.range L.length).all (fun j =>
      (j == i) || (countLeaves o (L.getD j (.text "")) == 0)) = true) :
    ∀ j, j < L.length → j ≠ i → countLeaves o (L.getD j (.text "")) = 0 := by
  intro j hj hne
  have := List.all_eq_true.mp h j (List.mem_range.mpr hj)
  simp only [Bool.or_eq_true, beq_iff_eq] at this
  rcases this with h | h
  · exact absurd h hne
  · exact h

theorem chain_decomp (o : Options) (want : List Char) (n : XNode) (bpos : List Nat)
    (hns : cleanNs o.nspace = true) (hct : cleanTreeN n = true)
    (hchain : chainOkB o want n bpos = true) (hb : bpos ≠ []) :
    rowsRel o n = (rowsRel o (nodeAt n bpos)).map
        (fun tr => (tr.1, segsFor o n bpos ++ tr.2)) ∧
    cleanTreeN (nodeAt n bpos) = true ∧
    isElem (nodeAt n bpos) = true ∧
    ∃ CPf : List (String × List Char),
      (segsFor o n bpos).data =
        seGlue (CPf.map Prod.snd ++
          [(pieceAt o (ctxAt n bpos).1 (ctxAt n bpos).2).data]) ∧
      (∀ s ∈ CPf, SegOf o s.1 s.2 ∧
        (extractLocalL s.2).map Char.toLower ≠ want) ∧
      SegOf o (localNameOf (tagOf (nodeAt n bpos)))
        (pieceAt o (ctxAt n bpos).1 (ctxAt n bpos).2).data := by
  match bpos, hb with
  | [i], _ =>
    match n, hct with
    | .text s, _ => simp [chainOkB, childrenOf, XList.toList] at hchain
    | .elem tag attrs ch, hct =>
      rw [chainOkB] at hchain
      simp only [childrenOf, tagOf, Bool.and_eq_true, Bool.not_eq_true',
        decide_eq_true_eq, bne_iff_ne, ne_eq] at hchain
      obtain ⟨⟨⟨⟨⟨hign, hwant⟩, hlt⟩, helem⟩, hzero⟩, _⟩ := hchain
      rw [cleanTreeN] at hct
      simp only [Bool.and_eq_true] at hct
      obtain ⟨⟨⟨htag, hattrs⟩, htxt⟩, hchl⟩ := hct
      have hcc : cleanTreeN (ch.toList.getD i (.text "")) = true :=
        cleanTreeL_getD ch i hchl hlt
      have h1 : rowsRel o (XNode.elem tag attrs ch) = rowsRelL o ch [] := by
        rw [rowsRel]
        split_ifs with hI hL hP
        · rw [hI] at hign; simp at hign
        · rw [hasElemChild_of ch i hlt helem] at hL; simp at hL
        · rw [hasElemChild_of ch i hlt helem] at hL; simp at hL
        · rfl
      have h2 := rowsRelL_single o ch i [] hlt (rangeAll_zero o ch.toList i hzero)
      match hch : ch.toList.getD i (.text "") with
      | .text s2 => rw [hch] at helem; simp [isElem] at helem
      | .elem ctag cattrs cch =>
        have hcc2 := hcc
        rw [hch, cleanTreeN] at hcc2
        simp only [Bool.and_eq_true] at hcc2
        obtain ⟨⟨⟨hctag, hcattrs⟩, _⟩, _⟩ := hcc2
        have hsegs : segsFor o (XNode.elem tag attrs ch) [i] =
            "/" ++ pieceAtCnt o ch.toList [] i := by
          apply str_data_ext
          rw [show segsFor o (XNode.elem tag attrs ch) [i] =
            "/" ++ pieceAt o ch.toList i ++
              segsFor o (ch.toList.getD i (.text "")) [] from rfl]
          rw [show segsFor o (ch.toList.getD i (.text "")) [] = "" from rfl]
          rw [pieceAt]
          simp [String.data_append]
        refine ⟨?_, ?_, ?_, [], ?_, by simp, ?_⟩
        · rw [h1, h2, hsegs]
          rfl
        · show cleanTreeN (ch.toList.getD i (.text "")) = true
          exact hcc
        · show isElem (ch.toList.getD i (.text "")) = true
          exact helem
        · rw [hsegs]
          show ("/" ++ pieceAtCnt o ch.toList [] i).data =
            seGlue ([] ++ [(pieceAtCnt o ch.toList [] i).data])
          simp [seGlue, String.data_append]
        · show SegOf o (localNameOf (tagOf (ch.toList.getD i (.text ""))))
            (pieceAtCnt o ch.toList [] i).data
          rw [pieceAtCnt, hch]
          exact segOf_piece o ctag cattrs _ hctag hcattrs
  | i :: j :: rest2, _ =>
    match n, hct with
    | .text s, _ => simp [chainOkB, childrenOf, XList.toList] at hchain
    | .elem tag attrs ch, hct =>
      rw [chainOkB] at hchain
      simp only [childrenOf, tagOf, Bool.and_eq_true, Bool.not_eq_true',
        decide_eq_true_eq, bne_iff_ne, ne_eq] at hchain
      obtain ⟨⟨⟨⟨⟨hign, hwant⟩, hlt⟩, helem⟩, hzero⟩, hchild⟩ := hchain
      rw [cleanTreeN] at hct
      simp only [Bool.and_eq_true] at hct
      obtain ⟨⟨⟨htag, hattrs⟩, htxt⟩, hchl⟩ := hct
      have hcc : cleanTreeN (ch.toList.getD i (.text "")) = true :=
        cleanTreeL_getD ch i hchl hlt
      have h1 : rowsRel o (XNode.elem tag attrs ch) = rowsRelL o ch [] := by
        rw [rowsRel]
        split_ifs with hI hL hP
        · rw [hI] at hign; simp at hign
        · rw [hasElemChild_of ch i hlt helem] at hL; simp at hL
        · rw [hasElemChild_of ch i hlt helem] at hL; simp at hL
        · rfl
      have h2 := rowsRelL_single o ch i [] hlt (rangeAll_zero o ch.toList i hzero)
      have hwc : lowerChars (localNameOf (tagOf (ch.toList.getD i (.text "")))).data
          ≠ want := by
        rw [chainOkB] at hchild
        simp only [Bool.and_eq_true, bne_iff_ne, ne_eq] at hchild
        exact hchild.1.1.1.1.2
      obtain ⟨ih1, ih2, ih3, CPf2, ihse, ihfront, ihlast⟩ :=
        chain_decomp o want (ch.toList.getD i (.text "")) (j :: rest2) hns hcc hchild
          (by simp)
      match hch : ch.toList.getD i (.text "") with
      | .text s2 => rw [hch] at helem; simp [isElem] at helem
      | .elem ctag cattrs cch =>
        have hcc2 : cleanTreeN (XNode.elem ctag cattrs cch) = true := by
          rw [← hch]; exact hcc
        rw [cleanTreeN] at hcc2
        simp only [Bool.and_eq_true] at hcc2
        obtain ⟨⟨⟨hctag, hcattrs⟩, _⟩, _⟩ := hcc2
        refine ⟨?_, ih2, ih3,
          (localNameOf ctag, (pieceAtCnt o ch.toList [] i).data) :: CPf2, ?_, ?_, ihlast⟩
        · rw [h1, h2, ih1, List.map_map]
          apply map_congr_mem
          intro tr htr
          show (tr.1, "/" ++ pieceAtCnt o ch.toList [] i ++
              (segsFor o (ch.toList.getD i (.text "")) (j :: rest2) ++ tr.2)) =
            (tr.1, segsFor o (XNode.elem tag attrs ch) (i :: j :: rest2) ++ tr.2)
          rw [show segsFor o (XNode.elem tag attrs ch) (i :: j :: rest2) =
            "/" ++ pieceAt o ch.toList i ++
              segsFor o (ch.toList.getD i (.text "")) (j :: rest2) from rfl]
          rw [pieceAt]
          simp [String.append_assoc]
        · rw [show segsFor o (XNode.elem tag attrs ch) (i :: j :: rest2) =
            "/" ++ pieceAt o ch.toList i ++
              segsFor o (ch.toList.getD i (.text "")) (j :: rest2) from rfl]
          rw [pieceAt]
          rw [show ((localNameOf ctag, (pieceAtCnt o ch.toList [] i).data) :: CPf2).map
              Prod.snd = (pieceAtCnt o ch.toList [] i).data :: CPf2.map Prod.snd from rfl]
          rw [List.cons_append, seGlue]
          rw [show ctxAt (XNode.elem tag attrs ch) (i :: j :: rest2) =
            ctxAt (ch.toList.getD i (.text "")) (j :: rest2) from rfl]
          rw [← ihse]
          simp [String.data_append]
        · intro s2 hs2
          rcases List.mem_cons.mp hs2 with rfl | hs2
          · constructor
            · show SegOf o (localNameOf ctag) (pieceAtCnt o ch.toList [] i).data
              rw [pieceAtCnt, hch]
              exact segOf_piece o ctag cattrs _ hctag hcattrs
            · show (extractLocalL (pieceAtCnt o ch.toList [] i).data).map Char.toLower
                ≠ want
              have hsego : SegOf o (localNameOf ctag)
                  (pieceAtCnt o ch.toList [] i).data := by
                rw [pieceAtCnt, hch]
                exact segOf_piece o ctag cattrs _ hctag hcattrs
              have hex := segOf_extract o (localNameOf ctag)
                (pieceAtCnt o ch.toList [] i).data [] hns hsego tailOk_nil
              rw [List.append_nil] at hex
              rw [hex]
              rw [hch] at hwc
              exact hwc
          · exact ihfront s2 hs2

theorem seGlue_append (A B : List (List Char)) :
    seGlue (A ++ B) = seGlue A ++ seGlue B := by
  induction A with
  | nil => simp [seGlue]
  | cons q r ih => rw [List.cons_append, seGlue, seGlue, ih]; simp

theorem withTail_append_left (front X : List (List Char)) (tail : List Char)
    (hX : X ≠ []) : withTail (front ++ X) tail = front ++ withTail X tail := by
  induction front with
  | nil => simp
  | cons q front2 ih =>
    rw [List.cons_append]
    have hne : front2 ++ X ≠ [] := by
      intro hc
      exact hX (List.append_eq_nil.mp hc).2
    obtain ⟨y, ys, hys⟩ : ∃ y ys, front2 ++ X = y :: ys := by
      cases hfx : front2 ++ X with
      | nil => exact absurd hfx hne
      | cons a b => exact ⟨a, b, rfl⟩
    rw [hys, show withTail (q :: y :: ys) tail = q :: withTail (y :: ys) tail from rfl,
      ← hys, ih, List.cons_append]

theorem findSegIdx_at (want : List Char) (front : List (List Char)) (q : List Char)
    (rest : List (List Char))
    (hf : ∀ s ∈ front, (extractLocalL s).map Char.toLower ≠ want)
    (hq : (extractLocalL q).map Char.toLower = want) :
    findSegIdx want (front ++ q :: rest) = some front.length := by
  induction front with
  | nil =>
    rw [List.nil_append, findSegIdx, if_pos hq]
    rfl
  | cons s front2 ih =>
    rw [List.cons_append, findSegIdx, if_neg (hf s (by simp))]
    rw [ih (fun x hx => hf x (List.mem_cons_of_mem s hx))]
    rfl

theorem trim_row (o : Options) (want nsd : List Char) (t : String)
    (rootName BName : String) (p0 Bp : List Char)
    (CPf ps : List (String × List Char)) (tail : List Char)
    (hns : cleanNs o.nspace = true) (htx : TextOk t)
    (hp0 : SegOf o rootName p0)
    (hp0w : lowerChars rootName.data ≠ want)
    (hCP : ∀ s ∈ CPf, SegOf o s.1 s.2 ∧ (extractLocalL s.2).map Char.toLower ≠ want)
    (hB : SegOf o BName Bp) (hBw : lowerChars BName.data = want)
    (hps : ∀ s ∈ ps, SegOf o s.1 s.2) (htail : TailOk tail) :
    trimLineL want nsd
        (t.data ++ ' ' :: ':' :: ' ' :: '/' :: '/' ::
          interL ['/'] (withTail ((p0 :: CPf.map Prod.snd) ++ Bp :: ps.map Prod.snd) tail)) =
      t.data ++ ' ' :: ':' :: ' ' :: '/' :: '/' ::
        (Bp ++ (seGlue (ps.map Prod.snd) ++ tail)) ∧
    RowFmt o (t.data ++ ' ' :: ':' :: ' ' :: '/' :: '/' ::
      interL ['/'] (withTail ((p0 :: CPf.map Prod.snd) ++ Bp :: ps.map Prod.snd) tail)) := by
  have htne : t.data ≠ [] := fun hd => htx.1 (str_data_ext t "" hd)
  have hallseg : ∀ s ∈ ((rootName, p0) :: CPf) ++ (BName, Bp) :: ps,
      SegOf o s.1 s.2 := by
    intro s hs
    simp only [List.mem_append, List.mem_cons] at hs
    rcases hs with (rfl | hs) | rfl | hs
    · exact hp0
    · exact (hCP s hs).1
    · exact hB
    · exact hps s hs
  have hmapsnd : ((((rootName, p0) :: CPf) ++ (BName, Bp) :: ps)).map Prod.snd =
      (p0 :: CPf.map Prod.snd) ++ Bp :: ps.map Prod.snd := by simp
  have hpok : ∀ q ∈ withTail ((p0 :: CPf.map Prod.snd) ++ Bp :: ps.map Prod.snd) tail,
      PieceOk o q := by
    intro q hq
    apply pieces_ok o (((rootName, p0) :: CPf) ++ (BName, Bp) :: ps) tail hns hallseg
      htail (by simp)
    rw [hmapsnd]
    exact hq
  have hcore := trimLine_core want nsd t
    (withTail ((p0 :: CPf.map Prod.snd) ++ Bp :: ps.map Prod.snd) tail)
    htne htx.2 (withTail_ne_nil _ _)
    (fun q hq => ⟨(hpok q hq).1, (hpok q hq).2.1⟩)
    (fun q c hq hc => (hpok q (mem_of_getLast?_my hq)).2.2.2 c hc)
  obtain ⟨tl2, rest2, htl2, hsplit⟩ : ∃ tl2 rest2, TailOk tl2 ∧
      withTail (Bp :: ps.map Prod.snd) tail = (Bp ++ tl2) :: rest2 := by
    match hps2 : ps.map Prod.snd with
    | [] => exact ⟨tail, [], htail, rfl⟩
    | y :: ys =>
      refine ⟨[], withTail (y :: ys) tail, tailOk_nil, ?_⟩
      rw [show withTail (Bp :: y :: ys) tail = Bp :: withTail (y :: ys) tail from rfl]
      rw [List.append_nil]
  have hWT : withTail ((p0 :: CPf.map Prod.snd) ++ Bp :: ps.map Prod.snd) tail =
      (p0 :: CPf.map Prod.snd) ++ ((Bp ++ tl2) :: rest2) := by
    rw [withTail_append_left _ _ _ (by simp), hsplit]
  have hfind : findSegIdx want
      (withTail ((p0 :: CPf.map Prod.snd) ++ Bp :: ps.map Prod.snd) tail) =
      some (CPf.length + 1) := by
    rw [hWT]
    have hfr : ∀ s ∈ p0 :: CPf.map Prod.snd,
        (extractLocalL s).map Char.toLower ≠ want := by
      intro s hs
      rcases List.mem_cons.mp hs with rfl | hs
      · have hex := segOf_extract o rootName s [] hns hp0 tailOk_nil
        rw [List.append_nil] at hex
        rw [hex]
        exact hp0w
      · rw [List.mem_map] at hs
        obtain ⟨s2, hs2, rfl⟩ := hs
        exact (hCP s2 hs2).2
    have hm : (extractLocalL (Bp ++ tl2)).map Char.toLower = want := by
      rw [segOf_extract o BName Bp tl2 hns hB htl2]
      exact hBw
    have := findSegIdx_at want (p0 :: CPf.map Prod.snd) (Bp ++ tl2) rest2 hfr hm
    simpa using this
  constructor
  · rw [hcore, hfind]
    show t.data ++ ' ' :: ':' :: ' ' :: '/' :: '/' :: interL ['/']
      (((withTail ((p0 :: CPf.map Prod.snd) ++ Bp :: ps.map Prod.snd) tail).drop
        (CPf.length + 1)).map
          (fun s => if s.contains ':' then s else nsd ++ ':' :: s)) = _
    rw [hWT]
    rw [show (CPf.length + 1 : Nat) = (p0 :: CPf.map Prod.snd).length from by simp]
    rw [List.drop_left]
    rw [← hsplit]
    rw [map_prefixNs_id nsd _ (by
      intro q hq
      have hpk : PieceOk o q := by
        apply pieces_ok o ((BName, Bp) :: ps) tail hns (by
          intro s hs
          rcases List.mem_cons.mp hs with rfl | hs
          · exact hB
          · exact hps s hs) htail (by simp)
        simpa using hq
      obtain ⟨r, hr⟩ := hpk.2.2.1
      rw [hr]
      simp)]
    rw [interL_withTail _ _ (by simp), interL_cons_seGlue]
    simp [List.append_assoc]
  · exact ⟨t.data,
      withTail ((p0 :: CPf.map Prod.snd) ++ Bp :: ps.map Prod.snd) tail,
      rfl, htne, htx.2, withTail_ne_nil _ _, hpok⟩

theorem cleanTreeL_mem (l : XList) (hc : cleanTreeL l = true) :
    ∀ s ∈ l.toList, cleanTreeN s = true := by
  match l with
  | .nil => intro s hs; simp [XList.toList] at hs
  | .cons c r =>
    rw [cleanTreeL] at hc
    simp only [Bool.and_eq_true] at hc
    intro s hs
    rw [toList_cons] at hs
    rcases List.mem_cons.mp hs with rfl | hs
    · exact hc.1
    · exact cleanTreeL_mem r hc.2 s hs

theorem cleanTreeN_getD_any (l : XList) (i : Nat) (hc : cleanTreeL l = true) :
    cleanTreeN (l.toList.getD i (.text "")) = true := by
  by_cases h : i < l.toList.length
  · exact cleanTreeL_getD l i hc h
  · rw [List.getD_eq_default _ _ (by omega)]
    rfl

theorem ctxAt_clean (root : XNode) (q : List Nat)
    (hct : cleanTreeN root = true) : ∀ s ∈ (ctxAt root q).1, cleanTreeN s = true := by
  match q with
  | [] =>
    intro s hs
    rw [show (ctxAt root []).1 = [root] from rfl] at hs
    rw [List.mem_singleton.mp hs]
    exact hct
  | [i] =>
    intro s hs
    rw [show (ctxAt root [i]).1 = (childrenOf root).toList from rfl] at hs
    match root, hct with
    | .text s2, _ => simp [childrenOf, XList.toList] at hs
    | .elem tag attrs ch, hct =>
      rw [cleanTreeN] at hct
      simp only [Bool.and_eq_true] at hct
      exact cleanTreeL_mem ch hct.2 s hs
  | i :: j :: rest =>
    intro s hs
    rw [show ctxAt root (i :: j :: rest) =
      ctxAt ((childrenOf root).toList.getD i (.text "")) (j :: rest) from rfl] at hs
    refine ctxAt_clean ((childrenOf root).toList.getD i (.text "")) (j :: rest) ?_ s hs
    match root, hct with
    | .text s2, _ =>
      simp only [childrenOf, XList.toList]
      rw [show (([] : List XNode).getD i (XNode.text "")) = XNode.text "" from by
        cases i <;> rfl]
      rfl
    | .elem tag attrs ch, hct =>
      rw [cleanTreeN] at hct
      simp only [Bool.and_eq_true] at hct
      exact cleanTreeN_getD_any ch i hct.2

theorem bsp_cnt (o : Options) (sibs : List XNode) (i : Nat)
    (ctag : String) (cattrs : List (String × String)) (cch : XList)
    (hget : sibs.getD i (.text "") = .elem ctag cattrs cch)
    (hcl : ∀ s ∈ sibs.take i, cleanTreeN s = true)
    (hctag : cleanName ctag = true)
    (hcattrs : cattrs.all (fun a => cleanName a.1 && cleanValue a.2) = true) :
    buildStartPathForElement o sibs i = "//" ++ pieceAt o sibs i := by
  have hlc : cleanName (localNameOf ctag) = true := by
    rw [localNameOf_clean ctag hctag]; exact hctag
  have hidx := cnt_eq_filter o (sibs.take i) (localNameOf ctag)
    (attrPredStr o.attributesToIncludeInPath cattrs) hlc
    (attrPredStr_shape o.attributesToIncludeInPath cattrs hcattrs).1 hcl
  apply str_data_ext
  simp only [buildStartPathForElement, pieceAt, pieceAtCnt, hget]
  rw [← hidx]
  simp [String.data_append]

theorem c7_core (o : Options) (tag nsdS : String) (htagne : ¬tag = "")
    (R : List (String × String)) (rootName BName : String)
    (prefA segsS prefB : String) (p0 Bp : List Char)
    (CPf : List (String × List Char))
    (hns : cleanNs o.nspace = true)
    (hRok : ∀ tr ∈ R, RowOk o tr)
    (hpa : prefA.data = '/' :: '/' :: p0)
    (hsg : segsS.data = seGlue (CPf.map Prod.snd ++ [Bp]))
    (hpb : prefB.data = '/' :: '/' :: Bp)
    (hp0 : SegOf o rootName p0)
    (hp0w : lowerChars rootName.data ≠ lowerChars tag.data)
    (hCP : ∀ s ∈ CPf, SegOf o s.1 s.2 ∧
      (extractLocalL s.2).map Char.toLower ≠ lowerChars tag.data)
    (hB : SegOf o BName Bp)
    (hBw : lowerChars BName.data = lowerChars tag.data) :
    trimGeneratedXPaths
        (joinNL (R.map (fun tr => tr.1 ++ " : " ++ prefA ++ (segsS ++ tr.2)))) tag nsdS =
      joinNL (R.map (fun tr => tr.1 ++ " : " ++ prefB ++ tr.2)) := by
  rw [trimGeneratedXPaths, if_neg htagne]
  by_cases hR0 : R = []
  · rw [hR0, List.map_nil, List.map_nil]
    rfl
  · have hper : ∀ tr ∈ R,
        trimLineL (lowerChars tag.data) nsdS.data
          ((tr.1 ++ " : " ++ prefA ++ (segsS ++ tr.2)).data) =
          (tr.1 ++ " : " ++ prefB ++ tr.2).data ∧
        RowFmt o ((tr.1 ++ " : " ++ prefA ++ (segsS ++ tr.2)).data) := by
      intro tr htr
      obtain ⟨htext, ps, tail, hdec, hsegs2, htail⟩ := hRok tr htr
      have htrr := trim_row o (lowerChars tag.data) nsdS.data tr.1 rootName BName
        p0 Bp CPf ps tail hns htext hp0 hp0w hCP hB hBw hsegs2 htail
      have hdataA : (tr.1 ++ " : " ++ prefA ++ (segsS ++ tr.2)).data =
          tr.1.data ++ ' ' :: ':' :: ' ' :: '/' :: '/' ::
            interL ['/']
              (withTail ((p0 :: CPf.map Prod.snd) ++ Bp :: ps.map Prod.snd) tail) := by
        rw [interL_withTail _ _ (by simp)]
        rw [show ((p0 :: CPf.map Prod.snd) ++ Bp :: ps.map Prod.snd) =
          p0 :: (CPf.map Prod.snd ++ Bp :: ps.map Prod.snd) from rfl]
        rw [interL_cons_seGlue]
        rw [show CPf.map Prod.snd ++ Bp :: ps.map Prod.snd =
          (CPf.map Prod.snd ++ [Bp]) ++ ps.map Prod.snd by simp]
        rw [seGlue_append]
        simp only [String.data_append, hpa, hdec, hsg]
        simp [List.append_assoc]
      have hdataB : (tr.1 ++ " : " ++ prefB ++ tr.2).data =
          tr.1.data ++ ' ' :: ':' :: ' ' :: '/' :: '/' ::
            (Bp ++ (seGlue (ps.map Prod.snd) ++ tail)) := by
        simp only [String.data_append, hpb, hdec]
        simp [List.append_assoc]
      constructor
      · rw [hdataA, hdataB]
        exact htrr.1
      · rw [hdataA]
        exact htrr.2
    have hnb : ∀ l ∈ (R.map (fun tr => tr.1 ++ " : " ++ prefA ++ (segsS ++ tr.2))).map
        String.data, '\n' ∉ l ∧ '\r' ∉ l := by
      intro l hl
      rw [List.map_map, List.mem_map] at hl
      obtain ⟨tr, htr, rfl⟩ := hl
      exact rowFmt_no_break o _ (hper tr htr).2
    have hsl : splitLinesL
        (joinNL (R.map (fun tr => tr.1 ++ " : " ++ prefA ++ (segsS ++ tr.2)))).data =
        (R.map (fun tr => tr.1 ++ " : " ++ prefA ++ (segsS ++ tr.2))).map String.data := by
      rw [show (joinNL (R.map (fun tr => tr.1 ++ " : " ++ prefA ++ (segsS ++ tr.2)))).data =
        interL ['\n'] ((R.map (fun tr => tr.1 ++ " : " ++ prefA ++ (segsS ++ tr.2))).map
          String.data) from rfl]
      exact splitLinesL_interL _ (by simp [hR0]) hnb
    have hlists : (((R.map (fun tr => tr.1 ++ " : " ++ prefA ++ (segsS ++ tr.2))).map
          String.data).map (trimLineL (lowerChars tag.data) nsdS.data)) =
        (R.map (fun tr => tr.1 ++ " : " ++ prefB ++ tr.2)).map String.data := by
      rw [List.map_map, List.map_map, List.map_map]
      apply map_congr_mem
      intro tr htr
      exact (hper tr htr).1
    rw [hsl, hlists]
    rfl

/-- C7 (amended): the start-tag round trip does hold on the restricted inputs
for which the two strategies can agree: when the tree and namespace are clean,
the first element with local name B (as the namespace-aware lookup finds it)
sits at the end of a childNodes chain along which every ancestor is unignored
and does not itself match b case-insensitively, and every leaf row lies inside
that B subtree (all off-chain sibling subtrees contribute no rows), then
building every path top-down from the document element and truncating the
output at startAtTag B yields exactly the output of generateXpathList, which
resolves B and starts traversal there. Without the single-chain restriction
the round trip fails (C7 counterexample): a second B subtree keeps its rows
under truncation but is never visited by the started traversal. -/
theorem C7_amended (o : Options) (root : XNode) (bpos : List Nat)
    (hns : cleanNs o.nspace = true) (hct : cleanTreeN root = true)
    (hsat : o.startAtTag = some "B")
    (hfind : findPosN (byLocal "B") root = some bpos)
    (hb : bpos ≠ [])
    (hchain : chainOkB o ['b'] root bpos = true) :
    trimGeneratedXPaths
        (joinNL (Xp.traverse o root
          ("//" ++ o.nspace ++ ":" ++ localNameOf (tagOf root) ++ "[1]")))
        "B" (if o.nspace = "" then "d" else o.nspace) =
      generateXpathList root o := by
  rcases bpos with _ | ⟨i0, brest⟩
  · exact absurd rfl hb
  obtain ⟨hpred, hctB⟩ := findPosN_spec (byLocal "B") root (i0 :: brest) hfind hct
  rw [byLocal, Bool.and_eq_true] at hpred
  have hisB0 : isElem (nodeAt root (i0 :: brest)) = true := hpred.1
  have hlocB : localNameOf (tagOf (nodeAt root (i0 :: brest))) = "B" :=
    beq_iff_eq.mp hpred.2
  obtain ⟨hcr, hctB2, hisB, CPf, hse, hfront, hlastSeg⟩ :=
    chain_decomp o ['b'] root (i0 :: brest) hns hct hchain hb
  have hwb : lowerChars ("B" : String).data = ['b'] := by decide
  cases root with
  | text s => simp [chainOkB, childrenOf, XList.toList] at hchain
  | elem rtag rattrs rch =>
    have hctr := hct
    rw [cleanTreeN] at hctr
    simp only [Bool.and_eq_true] at hctr
    obtain ⟨⟨⟨htagr, hattrsr⟩, _⟩, _⟩ := hctr
    have hrootw : lowerChars (localNameOf rtag).data ≠ ['b'] := by
      have hcopy := hchain
      rw [chainOkB] at hcopy
      simp only [childrenOf, tagOf, Bool.and_eq_true, Bool.not_eq_true',
        decide_eq_true_eq, bne_iff_ne, ne_eq] at hcopy
      exact hcopy.1.1.1.1.2
    have hp0 : SegOf o (localNameOf rtag)
        ((o.nspace ++ ":" ++ localNameOf rtag ++ "[1]").data) := by
      refine ⟨['[', '1', ']'], by simp [String.data_append], ?_, Or.inr ⟨['1'], rfl⟩, ?_⟩
      · rw [localNameOf_clean rtag htagr]; exact htagr
      · intro c hc; fin_cases hc <;> decide
    obtain ⟨btag, battrs, bch, hbn⟩ : ∃ bt ba bc,
        nodeAt (XNode.elem rtag rattrs rch) (i0 :: brest) = XNode.elem bt ba bc := by
      match hx : nodeAt (XNode.elem rtag rattrs rch) (i0 :: brest) with
      | .text s2 => rw [hx] at hisB; simp [isElem] at hisB
      | .elem a b c => exact ⟨a, b, c, rfl⟩
    have hctBe := hctB2
    rw [hbn, cleanTreeN] at hctBe
    simp only [Bool.and_eq_true] at hctBe
    obtain ⟨⟨⟨htagB, hattrsB⟩, _⟩, _⟩ := hctBe
    have hget : (ctxAt (XNode.elem rtag rattrs rch) (i0 :: brest)).1.getD
        (ctxAt (XNode.elem rtag rattrs rch) (i0 :: brest)).2 (.text "") =
        XNode.elem btag battrs bch := by rw [ctxAt_getD, hbn]
    have hcl : ∀ s ∈ ((ctxAt (XNode.elem rtag rattrs rch) (i0 :: brest)).1).take
        ((ctxAt (XNode.elem rtag rattrs rch) (i0 :: brest)).2),
        cleanTreeN s = true :=
      fun s hs => ctxAt_clean _ (i0 :: brest) hct s (List.mem_of_mem_take hs)
    have hbsp := bsp_cnt o (ctxAt (XNode.elem rtag rattrs rch) (i0 :: brest)).1
      (ctxAt (XNode.elem rtag rattrs rch) (i0 :: brest)).2 btag battrs bch
      hget hcl htagB hattrsB
    have hres : resolveStart (XNode.elem rtag rattrs rch) o "B" = some (i0 :: brest) := by
      rw [resolveStart, hfind]
    have hrows : generateRows (XNode.elem rtag rattrs rch) o =
        Xp.traverse o (nodeAt (XNode.elem rtag rattrs rch) (i0 :: brest))
          (buildStartPathForElement o
            (ctxAt (XNode.elem rtag rattrs rch) (i0 :: brest)).1
            (ctxAt (XNode.elem rtag rattrs rch) (i0 :: brest)).2) := by
      simp only [generateRows, hsat]
      rw [show (some ("B" : String)).getD "" = "B" from rfl]
      rw [if_neg (show ¬("B" : String) = "" by decide)]
      rw [hres]
    have hA : Xp.traverse o (XNode.elem rtag rattrs rch)
        ("//" ++ o.nspace ++ ":" ++ localNameOf (tagOf (XNode.elem rtag rattrs rch)) ++
          "[1]") =
        (rowsRel o (XNode.elem btag battrs bch)).map
          (fun tr => tr.1 ++ " : " ++
            ("//" ++ o.nspace ++ ":" ++ localNameOf rtag ++ "[1]") ++
            (segsFor o (XNode.elem rtag rattrs rch) (i0 :: brest) ++ tr.2)) := by
      rw [traverse_eq_rowsRel, hcr, hbn, List.map_map]
      rfl
    have hBtr : Xp.traverse o (nodeAt (XNode.elem rtag rattrs rch) (i0 :: brest))
        (buildStartPathForElement o
          (ctxAt (XNode.elem rtag rattrs rch) (i0 :: brest)).1
          (ctxAt (XNode.elem rtag rattrs rch) (i0 :: brest)).2) =
        (rowsRel o (XNode.elem btag battrs bch)).map
          (fun tr => tr.1 ++ " : " ++
            (buildStartPathForElement o
              (ctxAt (XNode.elem rtag rattrs rch) (i0 :: brest)).1
              (ctxAt (XNode.elem rtag rattrs rch) (i0 :: brest)).2) ++ tr.2) := by
      rw [hbn, traverse_eq_rowsRel]
    rw [generateXpathList, hrows, hBtr, hA]
    apply c7_core o "B" (if o.nspace = "" then "d" else o.nspace) (by decide)
      (rowsRel o (XNode.elem btag battrs bch)) (localNameOf rtag)
      (localNameOf (tagOf (nodeAt (XNode.elem rtag rattrs rch) (i0 :: brest))))
      ("//" ++ o.nspace ++ ":" ++ localNameOf rtag ++ "[1]")
      (segsFor o (XNode.elem rtag rattrs rch) (i0 :: brest))
      (buildStartPathForElement o
        (ctxAt (XNode.elem rtag rattrs rch) (i0 :: brest)).1
        (ctxAt (XNode.elem rtag rattrs rch) (i0 :: brest)).2)
      ((o.nspace ++ ":" ++ localNameOf rtag ++ "[1]").data)
      ((pieceAt o (ctxAt (XNode.elem rtag rattrs rch) (i0 :: brest)).1
        (ctxAt (XNode.elem rtag rattrs rch) (i0 :: brest)).2).data)
      CPf hns
      (rowsRel_ok o (XNode.elem btag battrs bch) hns (hbn ▸ hctB2))
      (by simp [String.data_append])
      hse
      (by rw [hbsp]; simp [String.data_append])
      hp0
      (by rw [hwb]; exact hrootw)
      (fun s hs => ⟨(hfront s hs).1, by rw [hwb]; exact (hfront s hs).2⟩)
      hlastSeg
      (by rw [hlocB])

/-- tree and options of the C7 amended-claim witness: a single B subtree
holding two leaves, startAtTag B. -/
def treeW7 : XNode :=
  .elem "root" []
    (.cons (.elem "B" []
      (.cons (.elem "x" [] (.cons (.text "t") .nil))
        (.cons (.elem "y" [] (.cons (.text "u") .nil)) .nil))) .nil)

def oW7 : Options := normalizeOptions { startAtTag := some "B" }

/-- C7 (amended, witness): the round-trip equivalence instantiated on the
single-B witness tree, every hypothesis decided concretely. -/
theorem C7_amended_witness :
    cleanNs oW7.nspace = true ∧ cleanTreeN treeW7 = true ∧
    oW7.startAtTag = some "B" ∧ findPosN (byLocal "B") treeW7 = some [0] ∧
    chainOkB oW7 ['b'] treeW7 [0] = true ∧
    trimGeneratedXPaths
        (joinNL (Xp.traverse oW7 treeW7
          ("//" ++ oW7.nspace ++ ":" ++ localNameOf (tagOf treeW7) ++ "[1]")))
        "B" (if oW7.nspace = "" then "d" else oW7.nspace) =
      generateXpathList treeW7 oW7 :=
  ⟨by decide, by decide, by decide, by decide, by decide,
    C7_amended oW7 treeW7 [0] (by decide) (by decide) (by decide) (by decide)
      (by decide) (by decide)⟩
